import Mathlib

/-!
Verification of the zipline pipeline core: the Term data model with its
structural-identity cache, the TermGraph dependency resolution with
extra-rows lookback propagation, the AdjustedArray windowed traversal with
point-in-time corrections, and the exponential-weighted factor weights.

The Term / TermGraph / AdjustedArray definitions are modelled from the
specification (their implementation modules are not among the repository
files here; only their tests are), while the exponential-weighted factor
weights are translated from zipline/pipeline/factors/technical.py.
-/

namespace ZiplineSpec

/-- Recognized semantic scalar dtypes (the tests use float64 and
datetime64[ns]). -/
inductive DType where
  | float64
  | datetime64ns
deriving DecidableEq, Repr

/-- Modelled from the spec: a Term is an immutable, structurally-identified
computation node: the distinguished AssetExists leaf, a DataSet column leaf
(named logical field with a dtype, window_length 0), or a derived expression
with a type tag, dtype, window_length, ordered inputs, mask and
canonicalized params. -/
inductive Term where
  | assetExists : Term
  | column : String → DType → Term
  | derived : String → DType → Nat → List Term → Term → List (String × Int) → Term
deriving Repr

mutual

def Term.decEq : (a b : Term) → Decidable (a = b)
  | .assetExists, .assetExists => isTrue rfl
  | .assetExists, .column _ _ => isFalse (fun h => nomatch h)
  | .assetExists, .derived _ _ _ _ _ _ => isFalse (fun h => nomatch h)
  | .column _ _, .assetExists => isFalse (fun h => nomatch h)
  | .column n1 d1, .column n2 d2 =>
    if h1 : n1 = n2 then
      if h2 : d1 = d2 then isTrue (by rw [h1, h2])
      else isFalse (fun he => by cases he; exact h2 rfl)
    else isFalse (fun he => by cases he; exact h1 rfl)
  | .column _ _, .derived _ _ _ _ _ _ => isFalse (fun h => nomatch h)
  | .derived _ _ _ _ _ _, .assetExists => isFalse (fun h => nomatch h)
  | .derived _ _ _ _ _ _, .column _ _ => isFalse (fun h => nomatch h)
  | .derived t1 d1 w1 i1 m1 p1, .derived t2 d2 w2 i2 m2 p2 =>
    if h1 : t1 = t2 then
      if h2 : d1 = d2 then
        if h3 : w1 = w2 then
          match Term.decEqList i1 i2 with
          | isTrue h4 =>
            match Term.decEq m1 m2 with
            | isTrue h5 =>
              if h6 : p1 = p2 then isTrue (by rw [h1, h2, h3, h4, h5, h6])
              else isFalse (fun he => by cases he; exact h6 rfl)
            | isFalse h5 => isFalse (fun he => by cases he; exact h5 rfl)
          | isFalse h4 => isFalse (fun he => by cases he; exact h4 rfl)
        else isFalse (fun he => by cases he; exact h3 rfl)
      else isFalse (fun he => by cases he; exact h2 rfl)
    else isFalse (fun he => by cases he; exact h1 rfl)

def Term.decEqList : (as bs : List Term) → Decidable (as = bs)
  | [], [] => isTrue rfl
  | [], _ :: _ => isFalse (fun h => nomatch h)
  | _ :: _, [] => isFalse (fun h => nomatch h)
  | a :: as, b :: bs =>
    match Term.decEq a b with
    | isTrue h1 =>
      match Term.decEqList as bs with
      | isTrue h2 => isTrue (by rw [h1, h2])
      | isFalse h2 => isFalse (fun he => by cases he; exact h2 rfl)
    | isFalse h1 => isFalse (fun he => by cases he; exact h1 rfl)

end

instance : DecidableEq Term := Term.decEq

/-- window_length of a term: leaves have 0. -/
def Term.windowLength : Term → Nat
  | .assetExists => 0
  | .column _ _ => 0
  | .derived _ _ wl _ _ _ => wl

/-- Modelled from the spec: `.dependencies` is the resolved inputs plus the
mask, except for the AssetExists leaf, which has none.  A column leaf has no
inputs and the default AssetExists mask. -/
def Term.dependencies : Term → List Term
  | .assetExists => []
  | .column _ _ => [.assetExists]
  | .derived _ _ _ inputs mask _ => inputs ++ [mask]

/-- Exponents produced by numpy `arange(start, stop, -1)` for `start ≥ stop`:
the descending sequence start, start-1, ..., stop+1. -/
def arangeDown (start stop : Nat) : List Nat :=
  (List.range' (stop + 1) (start - stop)).reverse

/-- Translated from `_ExponentialWeightedFactor.weights` in
zipline/pipeline/factors/technical.py:
`full(length, decay_rate) ** arange(length + 1, 1, -1)`. -/
def weights (length : Nat) (decay_rate : ℚ) : List ℚ :=
  List.zipWith (fun b e => b ^ e) (List.replicate length decay_rate)
    (arangeDown (length + 1) 1)

theorem arangeDown_length (start stop : Nat) :
    (arangeDown start stop).length = start - stop := by
  simp [arangeDown]

theorem arangeDown_get (start stop i : Nat) (h : i < start - stop)
    (h2 : i < (arangeDown start stop).length) :
    (arangeDown start stop).get ⟨i, h2⟩ = start - i := by
  simp only [arangeDown, List.get_eq_getElem, List.getElem_reverse,
    List.length_reverse, List.length_range', List.getElem_range']
  omega

theorem weights_length (length : Nat) (dr : ℚ) :
    (weights length dr).length = length := by
  simp [weights, arangeDown]

theorem weights_get (length : Nat) (dr : ℚ) (i : Nat)
    (h : i < (weights length dr).length) :
    (weights length dr).get ⟨i, h⟩ = dr ^ (length + 1 - i) := by
  have hi : i < length := by
    have := weights_length length dr
    omega
  have hlen : (arangeDown (length + 1) 1).length = length := by
    rw [arangeDown_length]
    omega
  simp only [weights, List.get_eq_getElem, List.getElem_zipWith,
    List.getElem_replicate]
  congr 1
  have h2 : i < (arangeDown (length + 1) 1).length := by omega
  have := arangeDown_get (length + 1) 1 i (by omega) h2
  simpa using this

/-- C10: the exponential-weighted factor weight vector from
`_ExponentialWeightedFactor.weights` has exactly `length` entries; the entry
at 0-based position `i` (oldest row first) is `decay_rate ^ (length + 1 - i)`;
the most recent row (the last entry) is weighted `decay_rate ^ 2`; and every
exponent is at least 2, so no row is weighted `decay_rate ^ 1`. -/
theorem ewma_weights_spec (length : Nat) (hlen : 1 ≤ length) (dr : ℚ) :
    (weights length dr).length = length ∧
    (∀ i (h : i < (weights length dr).length),
      (weights length dr).get ⟨i, h⟩ = dr ^ (length + 1 - i)) ∧
    (weights length dr).getLast? = some (dr ^ 2) ∧
    (∀ i, i < length → 2 ≤ length + 1 - i) := by
  refine ⟨weights_length length dr, fun i h => weights_get length dr i h, ?_, ?_⟩
  · have hl : (weights length dr).length = length := weights_length length dr
    have hne : weights length dr ≠ [] := by
      intro hnil
      rw [hnil] at hl
      simp at hl
      omega
    rw [List.getLast?_eq_getLast _ hne, List.getLast_eq_getElem]
    have h : (weights length dr).length - 1 < (weights length dr).length := by
      omega
    have hv := weights_get length dr ((weights length dr).length - 1) h
    rw [List.get_eq_getElem] at hv
    have he : length + 1 - ((weights length dr).length - 1) = 2 := by
      rw [hl]
      omega
    rw [hv, he]
  · intro i hi
    omega

/-- Witness for C10 at length 3, decay_rate 1/2: the weight vector is
[(1/2)^4, (1/2)^3, (1/2)^2]. -/
theorem ewma_weights_spec_witness :
    (weights 3 (1/2)).length = 3 ∧
    (∀ i (h : i < (weights 3 (1/2)).length),
      (weights 3 (1/2)).get ⟨i, h⟩ = (1/2 : ℚ) ^ (3 + 1 - i)) ∧
    (weights 3 (1/2)).getLast? = some ((1/2 : ℚ) ^ 2) ∧
    (∀ i, i < 3 → 2 ≤ 3 + 1 - i) :=
  ewma_weights_spec 3 (by decide) (1/2)

/-! ### Adjustment and AdjustedArray -/

/-- Modelled from the spec: the kind of a rectangular point-in-time
correction. -/
inductive AdjKind where
  | multiply
  | add
  | overwrite
deriving DecidableEq, Repr

/-- Modelled from the spec: an Adjustment is an immutable value with an
inclusive row range, an inclusive column range, a scalar value and a kind. -/
structure Adjustment where
  first_row : Nat
  last_row : Nat
  first_col : Nat
  last_col : Nat
  value : ℚ
  kind : AdjKind
deriving DecidableEq, Repr

/-- Applying an adjustment to one cell: multiply/add/overwrite the value. -/
def adjOp : AdjKind → ℚ → ℚ → ℚ
  | .multiply, v, x => x * v
  | .add, v, x => x + v
  | .overwrite, v, _ => v

/-- Apply an adjustment to one row of the matrix, walking the columns from
index `c`. -/
def applyAdjRow (a : Adjustment) : Nat → List ℚ → List ℚ
  | _, [] => []
  | c, x :: xs =>
    (if a.first_col ≤ c ∧ c ≤ a.last_col then adjOp a.kind a.value x else x) ::
      applyAdjRow a (c + 1) xs

/-- Apply an adjustment to the matrix, walking the rows from index `r`:
every cell in the rectangle `[first_row, last_row] × [first_col, last_col]`
is corrected, every other cell kept. -/
def applyAdjFrom (a : Adjustment) : Nat → List (List ℚ) → List (List ℚ)
  | _, [] => []
  | r, row :: rows =>
    (if a.first_row ≤ r ∧ r ≤ a.last_row then applyAdjRow a 0 row else row) ::
      applyAdjFrom a (r + 1) rows

/-- Modelled from the spec: applying an Adjustment to a matrix
multiplies/adds/overwrites `value` into every cell of its rectangle. -/
def applyAdj (m : List (List ℚ)) (a : Adjustment) : List (List ℚ) :=
  applyAdjFrom a 0 m

/-- Apply a sequence of adjustments in input order. -/
def applyList (m : List (List ℚ)) (l : List Adjustment) : List (List ℚ) :=
  l.foldl applyAdj m

/-- The adjustments grouped under trigger row `r` (the mapping holds at most
one entry per trigger row). -/
def lookupAdjs (adjs : List (Nat × List Adjustment)) (r : Nat) : List Adjustment :=
  ((adjs.filter fun p => p.1 = r).map Prod.snd).foldr (· ++ ·) []

/-- Modelled from the spec: an AdjustedArray wraps an immutable baseline
matrix (rows = time, columns = assets) and a sparse mapping
trigger_row → ordered sequence of Adjustments. -/
structure AdjustedArray where
  baseline : List (List ℚ)
  adjustments : List (Nat × List Adjustment)

def AdjustedArray.numRows (aa : AdjustedArray) : Nat := aa.baseline.length

inductive TraverseError where
  | windowLengthTooLong
deriving DecidableEq, Repr

/-- Modelled from the spec: the traversal loop.  Starting from a private
working copy `m` and the current row `r` (with `rem` rows left), it applies
— in increasing trigger-row order, each trigger row once — the adjustments
whose trigger row equals the current row onto the working copy, and emits
the slice of rows `[r - w + 1, r]` of the corrected copy once the window
fits (`w ≤ r + 1`). -/
def traverseLoop (adjs : List (Nat × List Adjustment)) (w : Nat) :
    List (List ℚ) → Nat → Nat → List (List (List ℚ))
  | _, _, 0 => []
  | m, r, rem + 1 =>
    let m2 := applyList m (lookupAdjs adjs r)
    let rest := traverseLoop adjs w m2 (r + 1) rem
    if w ≤ r + 1 then ((m2.drop (r + 1 - w)).take w) :: rest else rest

/-- Modelled from the spec: `traverse(window_length)` fails with
`WindowLengthTooLongError` when `window_length > num_rows`, else produces
the finite sequence of corrected windows, one per last-row index from
`window_length - 1` to `num_rows - 1`. -/
def AdjustedArray.traverse (aa : AdjustedArray) (w : Nat) :
    Except TraverseError (List (List (List ℚ))) :=
  if w ≤ aa.numRows then .ok (traverseLoop aa.adjustments w aa.baseline 0 aa.numRows)
  else .error .windowLengthTooLong

/-- The corrected matrix as of end-of-row `ρ`, continuing from working copy
`m` at trigger cursor `r`: all triggers in `[r, ρ]` applied in increasing
row order. -/
def applyRange (adjs : List (Nat × List Adjustment)) (m : List (List ℚ))
    (r ρ : Nat) : List (List ℚ) :=
  (List.range' r (ρ + 1 - r)).foldl (fun acc k => applyList acc (lookupAdjs adjs k)) m

/-- The corrected matrix as of end-of-row `ρ`: all adjustments with trigger
row `≤ ρ` applied to the baseline in increasing trigger-row order (ties by
input order). -/
def asOf (baseline : List (List ℚ)) (adjs : List (Nat × List Adjustment))
    (ρ : Nat) : List (List ℚ) :=
  applyRange adjs baseline 0 ρ

theorem applyRange_step (adjs : List (Nat × List Adjustment))
    (m : List (List ℚ)) (r ρ : Nat) (h : r ≤ ρ) :
    applyRange adjs m r ρ
      = applyRange adjs (applyList m (lookupAdjs adjs r)) (r + 1) ρ := by
  unfold applyRange
  have h1 : ρ + 1 - r = (ρ - r) + 1 := by omega
  have h2 : ρ + 1 - (r + 1) = ρ - r := by omega
  rw [h1, h2, List.range'_succ, List.foldl_cons]

theorem applyRange_self (adjs : List (Nat × List Adjustment))
    (m : List (List ℚ)) (r : Nat) :
    applyRange adjs m r r = applyList m (lookupAdjs adjs r) := by
  rw [applyRange_step adjs m r r le_rfl]
  unfold applyRange
  simp

/-- The traversal loop emits, for each row `ρ` in `[r, r + rem)` at which a
window fits, the rows `[ρ + 1 - w, ρ]` of the corrected working copy, which
is the continuation `applyRange` of the incoming working copy. -/
theorem traverseLoop_eq (adjs : List (Nat × List Adjustment)) (w : Nat) :
    ∀ (rem r : Nat) (m : List (List ℚ)),
    traverseLoop adjs w m r rem
      = (List.range' r rem).filterMap (fun ρ =>
          if w ≤ ρ + 1 then
            some (((applyRange adjs m r ρ).drop (ρ + 1 - w)).take w)
          else none) := by
  intro rem
  induction rem with
  | zero => intro r m; simp [traverseLoop]
  | succ n ih =>
    intro r m
    rw [List.range'_succ, List.filterMap_cons]
    have htail : (List.range' (r + 1) n).filterMap (fun ρ =>
        if w ≤ ρ + 1 then
          some (((applyRange adjs m r ρ).drop (ρ + 1 - w)).take w)
        else none)
        = traverseLoop adjs w (applyList m (lookupAdjs adjs r)) (r + 1) n := by
      rw [ih (r + 1) (applyList m (lookupAdjs adjs r))]
      apply List.filterMap_congr
      intro ρ hρ
      have hmem : r + 1 ≤ ρ := (List.mem_range'_1.mp hρ).1
      rw [applyRange_step adjs m r ρ (by omega)]
    show traverseLoop adjs w m r (n + 1) = _
    unfold traverseLoop
    rw [applyRange_self]
    by_cases hw : w ≤ r + 1
    · simp [hw, htail]
    · simp [hw, htail]

/-- Once the first `w - 1` rows are consumed, every remaining row emits a
window: the traversal is the map, over last-row indices `ρ` from `w - 1` to
`nrows - 1`, of the rows `[ρ + 1 - w, ρ]` of the as-of-`ρ` corrected
matrix. -/
theorem traverseLoop_windows (adjs : List (Nat × List Adjustment))
    (baseline : List (List ℚ)) (w nrows : Nat) (hw : 1 ≤ w) (hn : w ≤ nrows) :
    traverseLoop adjs w baseline 0 nrows
      = (List.range' (w - 1) (nrows - w + 1)).map (fun ρ =>
          ((asOf baseline adjs ρ).drop (ρ + 1 - w)).take w) := by
  rw [traverseLoop_eq adjs w nrows 0 baseline]
  have hsplit : List.range' 0 nrows
      = List.range' 0 (w - 1) ++ List.range' (w - 1) (nrows - w + 1) := by
    have := List.range'_append 0 (w - 1) (nrows - w + 1) 1
    simp only [Nat.one_mul, Nat.zero_add] at this
    rw [this]
    congr 1
    omega
  rw [hsplit, List.filterMap_append]
  have hfirst : (List.range' 0 (w - 1)).filterMap (fun ρ =>
      if w ≤ ρ + 1 then
        some (((applyRange adjs baseline 0 ρ).drop (ρ + 1 - w)).take w)
      else none) = [] := by
    rw [List.filterMap_congr (g := fun _ => none)]
    · simp
    · intro ρ hρ
      have : ρ < 0 + (w - 1) := (List.mem_range'_1.mp hρ).2
      rw [if_neg (by omega)]
  have hsecond : (List.range' (w - 1) (nrows - w + 1)).filterMap (fun ρ =>
      if w ≤ ρ + 1 then
        some (((applyRange adjs baseline 0 ρ).drop (ρ + 1 - w)).take w)
      else none)
      = (List.range' (w - 1) (nrows - w + 1)).map (fun ρ =>
          ((asOf baseline adjs ρ).drop (ρ + 1 - w)).take w) := by
    rw [List.filterMap_congr
      (g := fun ρ => some (((asOf baseline adjs ρ).drop (ρ + 1 - w)).take w))]
    · exact List.filterMap_eq_map _ ▸ rfl
    · intro ρ hρ
      have : w - 1 ≤ ρ := (List.mem_range'_1.mp hρ).1
      rw [if_pos (by omega)]
      rfl
  rw [hfirst, hsecond, List.nil_append]

/-- `traverse` in terms of the pure as-of-row corrected matrices. -/
theorem traverse_eq_map (aa : AdjustedArray) (w : Nat) (hw : 1 ≤ w)
    (hn : w ≤ aa.numRows) :
    aa.traverse w
      = .ok ((List.range' (w - 1) (aa.numRows - w + 1)).map (fun ρ =>
          ((asOf aa.baseline aa.adjustments ρ).drop (ρ + 1 - w)).take w)) := by
  unfold AdjustedArray.traverse
  rw [if_pos hn, traverseLoop_windows aa.adjustments aa.baseline w aa.numRows hw hn]

/-- Cell access in a matrix: row `i`, column `j`. -/
def matCell (m : List (List ℚ)) (i j : Nat) : Option ℚ :=
  (m[i]?).bind fun row => row[j]?

theorem applyAdjRow_length (a : Adjustment) :
    ∀ (c : Nat) (row : List ℚ), (applyAdjRow a c row).length = row.length := by
  intro c row
  induction row generalizing c with
  | nil => rfl
  | cons x xs ih => simp [applyAdjRow, ih]

theorem applyAdjFrom_rowLengths (a : Adjustment) :
    ∀ (r : Nat) (m : List (List ℚ)),
    (applyAdjFrom a r m).map List.length = m.map List.length := by
  intro r m
  induction m generalizing r with
  | nil => rfl
  | cons row rows ih =>
    simp only [applyAdjFrom, List.map_cons, ih]
    congr 1
    by_cases h : a.first_row ≤ r ∧ r ≤ a.last_row
    · simp [h, applyAdjRow_length]
    · simp [h]

theorem applyList_rowLengths (l : List Adjustment) :
    ∀ (m : List (List ℚ)), (applyList m l).map List.length = m.map List.length := by
  induction l with
  | nil => intro m; rfl
  | cons a l ih =>
    intro m
    show (applyList (applyAdj m a) l).map List.length = _
    rw [ih (applyAdj m a)]
    exact applyAdjFrom_rowLengths a 0 m

theorem applyRange_rowLengths (adjs : List (Nat × List Adjustment)) :
    ∀ (n r : Nat) (m : List (List ℚ)),
    ((List.range' r n).foldl (fun acc k => applyList acc (lookupAdjs adjs k)) m).map
      List.length = m.map List.length := by
  intro n
  induction n with
  | zero => intro r m; rfl
  | succ n ih =>
    intro r m
    rw [List.range'_succ, List.foldl_cons, ih (r + 1)]
    exact applyList_rowLengths _ m

theorem asOf_rowLengths (baseline : List (List ℚ))
    (adjs : List (Nat × List Adjustment)) (ρ : Nat) :
    (asOf baseline adjs ρ).map List.length = baseline.map List.length := by
  unfold asOf applyRange
  exact applyRange_rowLengths adjs (ρ + 1 - 0) 0 baseline

theorem asOf_length (baseline : List (List ℚ))
    (adjs : List (Nat × List Adjustment)) (ρ : Nat) :
    (asOf baseline adjs ρ).length = baseline.length := by
  have := congrArg List.length (asOf_rowLengths baseline adjs ρ)
  simpa using this

theorem applyAdjRow_getElem? (a : Adjustment) :
    ∀ (c j : Nat) (row : List ℚ),
    (applyAdjRow a c row)[j]? = (row[j]?).map fun x =>
      if a.first_col ≤ c + j ∧ c + j ≤ a.last_col then adjOp a.kind a.value x
      else x := by
  intro c j row
  induction row generalizing c j with
  | nil => simp [applyAdjRow]
  | cons x xs ih =>
    cases j with
    | zero => simp [applyAdjRow]
    | succ j =>
      have hcj : c + 1 + j = c + (j + 1) := by omega
      simp only [applyAdjRow, List.getElem?_cons_succ, ih (c + 1) j, hcj]

theorem applyAdjFrom_getElem? (a : Adjustment) :
    ∀ (r i : Nat) (m : List (List ℚ)),
    (applyAdjFrom a r m)[i]? = (m[i]?).map fun row =>
      if a.first_row ≤ r + i ∧ r + i ≤ a.last_row then applyAdjRow a 0 row
      else row := by
  intro r i m
  induction m generalizing r i with
  | nil => simp [applyAdjFrom]
  | cons row rows ih =>
    cases i with
    | zero => simp [applyAdjFrom]
    | succ i =>
      have hri : r + 1 + i = r + (i + 1) := by omega
      simp only [applyAdjFrom, List.getElem?_cons_succ, ih (r + 1) i, hri]

/-- Cell-level semantics of one Adjustment: cells in the rectangle are
corrected by the kind's operation; cells outside are untouched. -/
theorem applyAdj_matCell (m : List (List ℚ)) (a : Adjustment) (i j : Nat) :
    matCell (applyAdj m a) i j = (matCell m i j).map fun x =>
      if a.first_row ≤ i ∧ i ≤ a.last_row ∧ a.first_col ≤ j ∧ j ≤ a.last_col
      then adjOp a.kind a.value x else x := by
  unfold matCell applyAdj
  rw [applyAdjFrom_getElem? a 0 i m]
  cases hrow : m[i]? with
  | none => rfl
  | some row =>
    simp only [Option.map_some', Option.some_bind, Nat.zero_add]
    by_cases hr : a.first_row ≤ i ∧ i ≤ a.last_row
    · rw [if_pos hr, applyAdjRow_getElem? a 0 j row]
      cases hx : row[j]? with
      | none => rfl
      | some x =>
        simp only [Option.map_some', Nat.zero_add]
        by_cases hc : a.first_col ≤ j ∧ j ≤ a.last_col
        · rw [if_pos hc, if_pos ⟨hr.1, hr.2, hc.1, hc.2⟩]
        · rw [if_neg hc, if_neg (by tauto)]
    · rw [if_neg hr]
      cases hx : row[j]? with
      | none => rfl
      | some x =>
        simp only [Option.map_some', Option.some_bind]
        rw [if_neg (by tauto)]

/-- The cell at absolute row `i`, column `j` of the traversal window whose
last row is `ρ`, among the emitted windows `ws` of a `traverse` with window
length `w` (the window sits at offset `ρ + 1 - w`, its rows are the absolute
rows `[ρ + 1 - w, ρ]`). -/
def windowCell (ws : List (List (List ℚ))) (w ρ i j : Nat) : Option ℚ :=
  ((ws[ρ + 1 - w]?).bind fun win => win[i - (ρ + 1 - w)]?).bind fun row => row[j]?

/-- Every cell of an emitted window equals the corresponding cell of the
pure as-of-`ρ` corrected matrix: the correction shown in a window is purely
a function of `(baseline, adjustments, ρ)`. -/
theorem traverse_windowCell (aa : AdjustedArray) (w ρ i j : Nat)
    (hw : 1 ≤ w) (hn : w ≤ aa.numRows) (hρl : w - 1 ≤ ρ) (hρn : ρ < aa.numRows)
    (hi1 : ρ + 1 - w ≤ i) (hi2 : i ≤ ρ)
    (ws : List (List (List ℚ))) (hws : aa.traverse w = .ok ws) :
    windowCell ws w ρ i j = matCell (asOf aa.baseline aa.adjustments ρ) i j := by
  rw [traverse_eq_map aa w hw hn] at hws
  have hws2 : ws = (List.range' (w - 1) (aa.numRows - w + 1)).map (fun ρ =>
      ((asOf aa.baseline aa.adjustments ρ).drop (ρ + 1 - w)).take w) := by
    cases hws
    rfl
  subst hws2
  unfold windowCell matCell
  have hk : ρ + 1 - w < aa.numRows - w + 1 := by omega
  have hkl : ρ + 1 - w < (List.range' (w - 1) (aa.numRows - w + 1)).length := by
    simpa using hk
  rw [List.getElem?_map, List.getElem?_eq_getElem hkl]
  have hρval : (List.range' (w - 1) (aa.numRows - w + 1))[ρ + 1 - w] = ρ := by
    simp only [List.getElem_range']
    omega
  rw [hρval]
  simp only [Option.map_some', Option.some_bind]
  have hd : i - (ρ + 1 - w) < w := by omega
  rw [List.getElem?_take, if_pos hd, List.getElem?_drop]
  congr 2
  omega

/-- A trigger mapping with a single entry applies that entry's adjustments
exactly when the trigger row falls inside the folded range. -/
theorem foldl_single_trigger (k : Nat) (a : Adjustment) :
    ∀ (n r : Nat) (m : List (List ℚ)),
    (List.range' r n).foldl
        (fun acc x => applyList acc (lookupAdjs [(k, [a])] x)) m
      = if r ≤ k ∧ k < r + n then applyAdj m a else m := by
  intro n
  induction n with
  | zero =>
    intro r m
    rw [show List.range' r 0 = [] from rfl, if_neg (by omega)]
    rfl
  | succ n ih =>
    intro r m
    rw [List.range'_succ, List.foldl_cons, ih (r + 1)]
    by_cases hk : k = r
    · subst hk
      have hlook : lookupAdjs [(k, [a])] k = [a] := by
        simp [lookupAdjs]
      rw [hlook]
      have h1 : ¬(k + 1 ≤ k ∧ k < k + 1 + n) := by omega
      have h2 : k ≤ k ∧ k < k + (n + 1) := by omega
      rw [if_neg h1, if_pos h2]
      rfl
    · have hlook : lookupAdjs [(k, [a])] r = [] := by
        simp [lookupAdjs, hk]
      rw [hlook]
      show (if r + 1 ≤ k ∧ k < r + 1 + n then applyAdj m a else m) = _
      by_cases h : r + 1 ≤ k ∧ k < r + 1 + n
      · rw [if_pos h, if_pos (by omega)]
      · rw [if_neg h, if_neg (by omega)]

/-- The as-of-`ρ` matrix of an array with a single adjustment at trigger
row `k`: for `ρ ≥ k` the adjustment is baked in, before that the baseline
shows. -/
theorem asOf_single (baseline : List (List ℚ)) (k : Nat) (a : Adjustment)
    (ρ : Nat) :
    asOf baseline [(k, [a])] ρ
      = if k ≤ ρ then applyAdj baseline a else baseline := by
  unfold asOf applyRange
  rw [foldl_single_trigger k a (ρ + 1 - 0) 0 baseline]
  by_cases h : k ≤ ρ
  · rw [if_pos (by omega), if_pos h]
  · rw [if_neg (by omega), if_neg h]

theorem asOf_row_length (baseline : List (List ℚ))
    (adjs : List (Nat × List Adjustment)) (ρ ncols : Nat)
    (hshape : ∀ row ∈ baseline, row.length = ncols) :
    ∀ row ∈ asOf baseline adjs ρ, row.length = ncols := by
  intro row hrow
  have h1 : row.length ∈ (asOf baseline adjs ρ).map List.length :=
    List.mem_map_of_mem _ hrow
  rw [asOf_rowLengths] at h1
  obtain ⟨row2, hmem, heq⟩ := List.mem_map.mp h1
  rw [← heq]
  exact hshape row2 hmem

/-- C6: over a rectangular baseline with `num_rows` rows and `ncols`
columns, `traverse w` succeeds for every `1 ≤ w ≤ num_rows`, producing
`num_rows - w + 1` windows of shape `(w, ncols)`, and fails with
`WindowLengthTooLongError` for every `w > num_rows`. -/
theorem traverse_shapes (aa : AdjustedArray) (ncols : Nat)
    (hshape : ∀ row ∈ aa.baseline, row.length = ncols) (w : Nat) :
    (1 ≤ w → w ≤ aa.numRows →
      ∃ ws, aa.traverse w = .ok ws ∧ ws.length = aa.numRows - w + 1 ∧
        ∀ win ∈ ws, win.length = w ∧ ∀ row ∈ win, row.length = ncols) ∧
    (aa.numRows < w → aa.traverse w = .error .windowLengthTooLong) := by
  constructor
  · intro hw hn
    refine ⟨_, traverse_eq_map aa w hw hn, ?_, ?_⟩
    · simp
    · intro win hwin
      obtain ⟨ρ, hρ, hwe⟩ := List.mem_map.mp hwin
      have hb := List.mem_range'_1.mp hρ
      constructor
      · rw [← hwe, List.length_take, List.length_drop, asOf_length]
        have hnum : aa.numRows = aa.baseline.length := rfl
        omega
      · intro row hrow
        apply asOf_row_length aa.baseline aa.adjustments ρ ncols hshape
        rw [← hwe] at hrow
        exact List.mem_of_mem_drop (List.mem_of_mem_take hrow)
  · intro hlt
    unfold AdjustedArray.traverse
    rw [if_neg (by omega)]

/-- Witness for C6 on a 3×2 baseline with no adjustments and w = 2. -/
theorem traverse_shapes_witness :
    ∃ ws, (AdjustedArray.mk [[1, 2], [3, 4], [5, 6]] []).traverse 2 = .ok ws ∧
      ws.length = 2 ∧ ∀ win ∈ ws, win.length = 2 ∧ ∀ row ∈ win, row.length = 2 := by
  have h := traverse_shapes (AdjustedArray.mk [[1, 2], [3, 4], [5, 6]] []) 2
    (by simp) 2
  have h2 := h.1 (by norm_num) (by norm_num [AdjustedArray.numRows])
  simpa [AdjustedArray.numRows] using h2

/-- C5: two traversals of the same AdjustedArray, with (possibly different)
window lengths, agree cell for cell on the windows ending at the same
absolute row `ρ`: each such cell equals the corresponding cell of the pure
as-of-`ρ` corrected matrix, a function of (baseline, adjustments, ρ)
alone. -/
theorem traverse_row_determinism (aa : AdjustedArray) (w1 w2 ρ : Nat)
    (hw1 : 1 ≤ w1) (hn1 : w1 ≤ aa.numRows) (hw2 : 1 ≤ w2)
    (hn2 : w2 ≤ aa.numRows) (hρ1 : w1 - 1 ≤ ρ) (hρ2 : w2 - 1 ≤ ρ)
    (hρn : ρ < aa.numRows) :
    ∃ ws1 ws2, aa.traverse w1 = .ok ws1 ∧ aa.traverse w2 = .ok ws2 ∧
      ∀ i j, ρ + 1 - w1 ≤ i → ρ + 1 - w2 ≤ i → i ≤ ρ →
        windowCell ws1 w1 ρ i j
          = matCell (asOf aa.baseline aa.adjustments ρ) i j ∧
        windowCell ws2 w2 ρ i j
          = matCell (asOf aa.baseline aa.adjustments ρ) i j ∧
        windowCell ws1 w1 ρ i j = windowCell ws2 w2 ρ i j := by
  refine ⟨_, _, traverse_eq_map aa w1 hw1 hn1, traverse_eq_map aa w2 hw2 hn2, ?_⟩
  intro i j hi1 hi2 hiρ
  have h1 := traverse_windowCell aa w1 ρ i j hw1 hn1 hρ1 hρn hi1 hiρ _
    (traverse_eq_map aa w1 hw1 hn1)
  have h2 := traverse_windowCell aa w2 ρ i j hw2 hn2 hρ2 hρn hi2 hiρ _
    (traverse_eq_map aa w2 hw2 hn2)
  exact ⟨h1, h2, by rw [h1, h2]⟩

/-- Witness for C5 on a 3-row baseline, window lengths 1 and 2, shared end
row 1. -/
theorem traverse_row_determinism_witness :
    ∃ ws1 ws2, (AdjustedArray.mk [[1], [2], [3]] []).traverse 1 = .ok ws1 ∧
      (AdjustedArray.mk [[1], [2], [3]] []).traverse 2 = .ok ws2 ∧
      windowCell ws1 1 1 1 0 = windowCell ws2 2 1 1 0 := by
  obtain ⟨ws1, ws2, e1, e2, h⟩ := traverse_row_determinism
    (AdjustedArray.mk [[1], [2], [3]] []) 1 2 1 (by norm_num)
    (by norm_num [AdjustedArray.numRows]) (by norm_num)
    (by norm_num [AdjustedArray.numRows]) (by norm_num) (by norm_num)
    (by norm_num [AdjustedArray.numRows])
  exact ⟨ws1, ws2, e1, e2, (h 1 0 (by norm_num) (by norm_num) (by norm_num)).2.2⟩

/-- C2: with a single multiply Adjustment of value `v`, trigger row `k`,
over the rectangle rows `[0, k]` by column `{c}`, every traversal window
whose last row `ρ` is ≥ `k` shows cells in rows `[0, k]` of column `c`
multiplied by exactly `v`, and every other cell equal to the baseline;
concretely, a 10-row one-asset all-ones baseline with one multiply
adjustment of value 2 triggered at row 4 yields under `traverse 1` the
window sequence [1],[1],[1],[1],[2],[1],[1],[1],[1],[1]. -/
theorem single_multiply_adjustment
    (baseline : List (List ℚ)) (k c : Nat) (v : ℚ) (w ρ i j : Nat)
    (hw : 1 ≤ w) (hn : w ≤ baseline.length) (hρl : w - 1 ≤ ρ)
    (hρn : ρ < baseline.length) (hi1 : ρ + 1 - w ≤ i) (hi2 : i ≤ ρ)
    (hk : k ≤ ρ) :
    (∃ ws,
      (AdjustedArray.mk baseline [(k, [⟨0, k, c, c, v, .multiply⟩])]).traverse w
        = .ok ws ∧
      windowCell ws w ρ i j
        = if i ≤ k ∧ j = c then (matCell baseline i j).map (fun x => x * v)
          else matCell baseline i j) ∧
    (AdjustedArray.mk (List.replicate 10 [1])
        [(4, [⟨0, 4, 0, 0, 2, .multiply⟩])]).traverse 1
      = .ok [[[1]], [[1]], [[1]], [[1]], [[2]],
             [[1]], [[1]], [[1]], [[1]], [[1]]] := by
  constructor
  · have hn2 : w ≤ (AdjustedArray.mk baseline
        [(k, [⟨0, k, c, c, v, .multiply⟩])]).numRows := hn
    have hρn2 : ρ < (AdjustedArray.mk baseline
        [(k, [⟨0, k, c, c, v, .multiply⟩])]).numRows := hρn
    refine ⟨_, traverse_eq_map _ w hw hn2, ?_⟩
    rw [traverse_windowCell _ w ρ i j hw hn2 hρl hρn2 hi1 hi2 _
      (traverse_eq_map _ w hw hn2)]
    show matCell (asOf baseline [(k, [⟨0, k, c, c, v, .multiply⟩])] ρ) i j = _
    rw [asOf_single, if_pos hk, applyAdj_matCell]
    cases hmc : matCell baseline i j with
    | none => simp
    | some x =>
      simp only [Option.map_some']
      by_cases hcase : i ≤ k ∧ j = c
      · rw [if_pos (show (⟨0, k, c, c, v, .multiply⟩ : Adjustment).first_row ≤ i
            ∧ i ≤ (⟨0, k, c, c, v, .multiply⟩ : Adjustment).last_row
            ∧ (⟨0, k, c, c, v, .multiply⟩ : Adjustment).first_col ≤ j
            ∧ j ≤ (⟨0, k, c, c, v, .multiply⟩ : Adjustment).last_col from
          ⟨Nat.zero_le i, hcase.1, le_of_eq hcase.2.symm, le_of_eq hcase.2⟩)]
        rw [if_pos hcase]
        rfl
      · rw [if_neg (fun hcon => hcase
          ⟨hcon.2.1, le_antisymm hcon.2.2.2 hcon.2.2.1⟩), if_neg hcase]
  · have hadj : applyAdj (List.replicate 10 [(1 : ℚ)]) ⟨0, 4, 0, 0, 2, .multiply⟩
        = [[2], [2], [2], [2], [2], [1], [1], [1], [1], [1]] := by
      norm_num [applyAdj, applyAdjFrom, applyAdjRow, adjOp, List.replicate]
    rw [traverse_eq_map _ 1 (by norm_num)
      (by norm_num [AdjustedArray.numRows])]
    have hnum : (AdjustedArray.mk (List.replicate 10 [(1 : ℚ)])
        [(4, [⟨0, 4, 0, 0, 2, .multiply⟩])]).numRows = 10 := rfl
    rw [hnum]
    congr 1
    have hr : List.range' (1 - 1) (10 - 1 + 1) = [0, 1, 2, 3, 4, 5, 6, 7, 8, 9] :=
      rfl
    rw [hr]
    simp only [List.map_cons, List.map_nil, asOf_single, hadj]
    norm_num [List.replicate]


/-- Witness for C2 at a 2-row baseline, k = 0, c = 0, v = 3, w = 1, window
ending at row 0, cell (0,0). -/
theorem single_multiply_adjustment_witness :
    (∃ ws,
      (AdjustedArray.mk [[5], [7]] [(0, [⟨0, 0, 0, 0, 3, .multiply⟩])]).traverse 1
        = .ok ws ∧
      windowCell ws 1 0 0 0
        = if 0 ≤ 0 ∧ 0 = 0 then (matCell [[5], [7]] 0 0).map (fun x => x * 3)
          else matCell [[5], [7]] 0 0) ∧
    (AdjustedArray.mk (List.replicate 10 [1])
        [(4, [⟨0, 4, 0, 0, 2, .multiply⟩])]).traverse 1
      = .ok [[[1]], [[1]], [[1]], [[1]], [[2]],
             [[1]], [[1]], [[1]], [[1]], [[1]]] :=
  single_multiply_adjustment [[5], [7]] 0 0 3 1 0 0 0 (by norm_num)
    (by norm_num) (by norm_num) (by norm_num) (by norm_num) (by norm_num)
    (by norm_num)

/-! ### Term construction: argument resolution, validation, structural cache -/

/-- Raw dtype codes as supplied by callers.  Recognized codes: 0 = float64,
1 = datetime64[ns]; anything else is unrecognized. -/
def parseDtype (n : Nat) : Option DType :=
  if n = 0 then some DType.float64
  else if n = 1 then some DType.datetime64ns
  else none

/-- Modelled from the spec: a Term type (a Factor subclass): its name and
its class-level defaults for inputs, window_length and dtype, plus its
declared parameter names. -/
structure FactorType where
  name : String
  defaultInputs : Option (List Term)
  defaultWindowLength : Option Nat
  defaultDtype : Option Nat
  paramNames : List String
deriving DecidableEq, Repr

/-- Construction arguments: `none` stands for NotSpecified; `kwargs` are
the parameter keyword arguments in the order given at the call site. -/
structure Args where
  inputs : Option (List Term)
  window_length : Option Nat
  dtype : Option Nat
  mask : Option Term
  kwargs : List (String × Int)
deriving DecidableEq, Repr

/-- The Term-construction error taxonomy of the spec. -/
inductive TermError where
  | inputsNotSpecified
  | windowLengthNotSpecified
  | dtypeNotSpecified
  | invalidDtype
  | nonAtomicInput
  | paramNotSupplied
deriving DecidableEq, Repr

/-- Modelled from the spec: an explicit argument wins; an unspecified
argument resolves to the type's class default. -/
def resolveArg {α : Type} : Option α → Option α → Option α
  | some v, _ => some v
  | none, dflt => dflt

/-- Keyword lookup in the call-site kwargs (first match). -/
def lookupKw : List (String × Int) → String → Option Int
  | [], _ => none
  | (n, v) :: rest, s => if n = s then some v else lookupKw rest s

/-- Insertion into a sorted list of names. -/
def insertSorted (s : String) : List String → List String
  | [] => [s]
  | x :: xs => if s ≤ x then s :: x :: xs else x :: insertSorted s xs

/-- Stable sort of the declared parameter names. -/
def sortNames : List String → List String
  | [] => []
  | x :: xs => insertSorted x (sortNames xs)

/-- Resolve each declared name against the kwargs, in order; fail when one
is not supplied. -/
def resolveNames : List String → List (String × Int) → Option (List (String × Int))
  | [], _ => some []
  | n :: ns, kwargs =>
    match lookupKw kwargs n, resolveNames ns kwargs with
    | some v, some rest => some ((n, v) :: rest)
    | _, _ => none

/-- Modelled from the spec: params are canonicalized to the sequence of
(name, value) pairs sorted by parameter name; every declared name must be
supplied as a keyword argument. -/
def resolveParams (names : List String) (kwargs : List (String × Int)) :
    Option (List (String × Int)) :=
  resolveNames (sortNames names) kwargs

/-- Modelled from the spec: resolve each unspecified argument to the class
default and validate, failing with the matching error; on success produce
the canonical structural key. -/
def mkKey (ft : FactorType) (a : Args) : Except TermError Term :=
  match resolveArg a.inputs ft.defaultInputs with
  | none => .error .inputsNotSpecified
  | some inputs =>
    match resolveArg a.window_length ft.defaultWindowLength with
    | none => .error .windowLengthNotSpecified
    | some wl =>
      match resolveArg a.dtype ft.defaultDtype with
      | none => .error .dtypeNotSpecified
      | some raw =>
        match parseDtype raw with
        | none => .error .invalidDtype
        | some dt =>
          if 0 < wl ∧ ∃ t ∈ inputs, 0 < t.windowLength then
            .error .nonAtomicInput
          else
            match resolveParams ft.paramNames a.kwargs with
            | none => .error .paramNotSupplied
            | some ps =>
              .ok (.derived ft.name dt wl inputs (a.mask.getD .assetExists) ps)

/-- First index of `key` in the cache. -/
def cacheLookup (key : Term) : List Term → Option Nat
  | [] => none
  | t :: ts => if t = key then some 0 else (cacheLookup key ts).map (· + 1)

/-- Modelled from the spec: construct-and-cache.  On success, return the
cached instance (its cache slot) if the canonical key is already present,
else allocate, cache and return the new instance.  On a validation error
the cache is unchanged — nothing is produced or cached. -/
def construct (h : List Term) (ft : FactorType) (a : Args) :
    Except TermError Nat × List Term :=
  match mkKey ft a with
  | .error e => (.error e, h)
  | .ok key =>
    match cacheLookup key h with
    | some i => (.ok i, h)
    | none => (.ok h.length, h ++ [key])

theorem cacheLookup_eq_none (key : Term) :
    ∀ h : List Term, cacheLookup key h = none ↔ key ∉ h := by
  intro h
  induction h with
  | nil => simp [cacheLookup]
  | cons t ts ih =>
    by_cases he : t = key
    · subst he
      simp [cacheLookup]
    · simp only [cacheLookup, if_neg he, Option.map_eq_none', ih, List.mem_cons]
      constructor
      · intro hn hor
        cases hor with
        | inl h2 => exact he h2.symm
        | inr h2 => exact hn h2
      · intro hn h2
        exact hn (Or.inr h2)

theorem cacheLookup_getElem? (key : Term) :
    ∀ (h : List Term) (i : Nat), cacheLookup key h = some i → h[i]? = some key := by
  intro h
  induction h with
  | nil => intro i hi; simp [cacheLookup] at hi
  | cons t ts ih =>
    intro i hi
    by_cases he : t = key
    · subst he
      simp [cacheLookup] at hi
      subst hi
      simp
    · simp [cacheLookup, he, Option.map_eq_some'] at hi
      obtain ⟨i2, hi2, he2⟩ := hi
      subst he2
      simpa using ih i2 hi2

theorem cacheLookup_append_self (key : Term) (h : List Term) (hk : key ∉ h) :
    cacheLookup key (h ++ [key]) = some h.length := by
  induction h with
  | nil => simp [cacheLookup]
  | cons t ts ih =>
    have ht : t ≠ key := fun he => hk (he ▸ List.mem_cons_self t ts)
    have hts : key ∉ ts := fun hm => hk (List.mem_cons_of_mem t hm)
    simp only [List.cons_append, cacheLookup, if_neg ht, List.append_eq]
    rw [ih hts]
    simp

/-- Constructing the same arguments again hits the cache: the same slot is
returned and the cache is unchanged. -/
theorem construct_idem (h : List Term) (ft : FactorType) (a : Args)
    (i : Nat) (h1 : List Term) (e : construct h ft a = (.ok i, h1)) :
    construct h1 ft a = (.ok i, h1) := by
  unfold construct at e ⊢
  cases hk : mkKey ft a with
  | error err => simp [hk] at e
  | ok key =>
    cases hl : cacheLookup key h with
    | some i2 =>
      simp [hk, hl] at e
      obtain ⟨he1, he2⟩ := e
      subst he1
      subst he2
      simp [hk, hl]
    | none =>
      simp [hk, hl] at e
      obtain ⟨he1, he2⟩ := e
      subst he1
      subst he2
      simp [hk, cacheLookup_append_self key h ((cacheLookup_eq_none key h).mp hl)]

theorem mem_insertSorted (s x : String) :
    ∀ l : List String, x ∈ insertSorted s l ↔ x = s ∨ x ∈ l := by
  intro l
  induction l with
  | nil => simp [insertSorted]
  | cons y ys ih =>
    by_cases hle : s ≤ y
    · simp [insertSorted, hle]
    · simp only [insertSorted, if_neg hle, List.mem_cons, ih]
      tauto

theorem mem_sortNames (x : String) :
    ∀ l : List String, x ∈ sortNames l ↔ x ∈ l := by
  intro l
  induction l with
  | nil => simp [sortNames]
  | cons y ys ih => simp [sortNames, mem_insertSorted, ih]

theorem lookupKw_perm : ∀ {k1 k2 : List (String × Int)}, k1.Perm k2 →
    (k1.map Prod.fst).Nodup → ∀ s : String, lookupKw k1 s = lookupKw k2 s := by
  intro k1 k2 hp
  induction hp with
  | nil => intro _ s; rfl
  | cons x hp ih =>
    intro hnd s
    obtain ⟨n, v⟩ := x
    show lookupKw ((n, v) :: _) s = lookupKw ((n, v) :: _) s
    unfold lookupKw
    by_cases hn : n = s
    · rw [if_pos hn, if_pos hn]
    · rw [if_neg hn, if_neg hn]
      refine ih ?_ s
      have h2 := hnd
      simp only [List.map_cons, List.nodup_cons] at h2
      exact h2.2
  | swap x y l =>
    intro hnd s
    obtain ⟨nx, vx⟩ := x
    obtain ⟨ny, vy⟩ := y
    have hne : ny ≠ nx := by
      intro he
      simp [he] at hnd
    by_cases h1 : nx = s <;> by_cases h2 : ny = s <;>
      simp [lookupKw, h1, h2]
    exact absurd (h2.trans h1.symm) hne
  | trans hp1 hp2 ih1 ih2 =>
    intro hnd s
    rw [ih1 hnd s, ih2 ((hp1.map Prod.fst).nodup_iff.mp hnd) s]

theorem resolveNames_congr (k1 k2 : List (String × Int)) :
    ∀ l : List String, (∀ n ∈ l, lookupKw k1 n = lookupKw k2 n) →
    resolveNames l k1 = resolveNames l k2 := by
  intro l
  induction l with
  | nil => intro _; rfl
  | cons n ns ih =>
    intro hl
    unfold resolveNames
    rw [hl n (List.mem_cons_self n ns),
      ih fun m hm => hl m (List.mem_cons_of_mem n hm)]

theorem resolveNames_inj (k1 k2 : List (String × Int)) :
    ∀ (l : List String) (ps : List (String × Int)),
    resolveNames l k1 = some ps → resolveNames l k2 = some ps →
    ∀ n ∈ l, lookupKw k1 n = lookupKw k2 n := by
  intro l
  induction l with
  | nil => intro ps _ _ n hn; simp at hn
  | cons m ms ih =>
    intro ps e1 e2 n hn
    unfold resolveNames at e1 e2
    cases hv1 : lookupKw k1 m with
    | none => rw [hv1] at e1; simp at e1
    | some v1 =>
      rw [hv1] at e1
      cases hr1 : resolveNames ms k1 with
      | none => rw [hr1] at e1; simp at e1
      | some rest1 =>
        rw [hr1] at e1
        simp at e1
        cases hv2 : lookupKw k2 m with
        | none => rw [hv2] at e2; simp at e2
        | some v2 =>
          rw [hv2] at e2
          cases hr2 : resolveNames ms k2 with
          | none => rw [hr2] at e2; simp at e2
          | some rest2 =>
            rw [hr2] at e2
            simp at e2
            rw [← e1] at e2
            simp at e2
            cases List.mem_cons.mp hn with
            | inl he =>
              subst he
              rw [hv1, hv2, e2.1]
            | inr hm =>
              exact ih rest1 hr1 (by rw [hr2, e2.2]) n hm

theorem parseDtype_inj (n1 n2 : Nat) (d1 d2 : DType)
    (h1 : parseDtype n1 = some d1) (h2 : parseDtype n2 = some d2)
    (hne : n1 ≠ n2) : d1 ≠ d2 := by
  unfold parseDtype at h1 h2
  by_cases e1 : n1 = 0 <;> by_cases e2 : n2 = 0 <;>
    by_cases f1 : n1 = 1 <;> by_cases f2 : n2 = 1 <;>
      simp_all <;> (rw [← h1, ← h2]; decide)

/-- Elimination of a successful key computation into its resolution and
validation facts. -/
theorem mkKey_ok_elim (ft : FactorType) (a : Args) (key : Term)
    (e : mkKey ft a = .ok key) :
    ∃ inputs wl raw dt ps,
      resolveArg a.inputs ft.defaultInputs = some inputs ∧
      resolveArg a.window_length ft.defaultWindowLength = some wl ∧
      resolveArg a.dtype ft.defaultDtype = some raw ∧
      parseDtype raw = some dt ∧
      ¬(0 < wl ∧ ∃ t ∈ inputs, 0 < t.windowLength) ∧
      resolveParams ft.paramNames a.kwargs = some ps ∧
      key = .derived ft.name dt wl inputs (a.mask.getD .assetExists) ps := by
  unfold mkKey at e
  cases h1 : resolveArg a.inputs ft.defaultInputs with
  | none => simp [h1] at e
  | some inputs =>
    simp only [h1] at e
    cases h2 : resolveArg a.window_length ft.defaultWindowLength with
    | none => simp [h2] at e
    | some wl =>
      simp only [h2] at e
      cases h3 : resolveArg a.dtype ft.defaultDtype with
      | none => simp [h3] at e
      | some raw =>
        simp only [h3] at e
        cases h4 : parseDtype raw with
        | none => simp [h4] at e
        | some dt =>
          simp only [h4] at e
          by_cases h5 : 0 < wl ∧ ∃ t ∈ inputs, 0 < t.windowLength
          · simp [if_pos h5] at e
          · simp only [if_neg h5] at e
            cases h6 : resolveParams ft.paramNames a.kwargs with
            | none => simp [h6] at e
            | some ps =>
              simp only [h6] at e
              simp at e
              exact ⟨inputs, wl, raw, dt, ps, rfl, rfl, rfl, h4, h5, rfl, e.symm⟩

/-- A successful construction puts the key at the returned slot; the cache
either already held it (and is unchanged) or grows by exactly that key. -/
theorem construct_ok_elim (h : List Term) (ft : FactorType) (a : Args)
    (i : Nat) (h' : List Term) (key : Term)
    (e : construct h ft a = (.ok i, h')) (k : mkKey ft a = .ok key) :
    h'[i]? = some key ∧
      ((h' = h ∧ cacheLookup key h = some i) ∨
        (i = h.length ∧ h' = h ++ [key])) := by
  unfold construct at e
  simp only [k] at e
  cases hl : cacheLookup key h with
  | some i2 =>
    simp only [hl] at e
    simp at e
    obtain ⟨he1, he2⟩ := e
    subst he1
    subst he2
    exact ⟨cacheLookup_getElem? key h _ hl, Or.inl ⟨rfl, rfl⟩⟩
  | none =>
    simp only [hl] at e
    simp at e
    obtain ⟨he1, he2⟩ := e
    subst he1
    subst he2
    constructor
    · rw [List.getElem?_append_right (le_refl h.length)]
      simp
    · exact Or.inr ⟨rfl, rfl⟩

/-- Two sequential successful constructions with different canonical keys
return different cache slots (different object identities). -/
theorem construct_distinct (h h1 h2 : List Term) (ft1 ft2 : FactorType)
    (a1 a2 : Args) (i j : Nat) (key1 key2 : Term)
    (e1 : construct h ft1 a1 = (.ok i, h1))
    (e2 : construct h1 ft2 a2 = (.ok j, h2))
    (k1 : mkKey ft1 a1 = .ok key1) (k2 : mkKey ft2 a2 = .ok key2)
    (hne : key1 ≠ key2) : i ≠ j := by
  obtain ⟨hg1, _⟩ := construct_ok_elim h ft1 a1 i h1 key1 e1 k1
  obtain ⟨hg2, hcase⟩ := construct_ok_elim h1 ft2 a2 j h2 key2 e2 k2
  intro hij
  subst hij
  cases hcase with
  | inl hc =>
    rw [hc.1] at hg2
    rw [hg1] at hg2
    exact hne (Option.some.injEq _ _ ▸ hg2)
  | inr hc =>
    have hlt : i < h1.length := by
      have := List.getElem?_eq_some_iff.mp hg1
      exact this.1
    omega

/-- Key computation only depends on the resolved arguments and the
canonicalized params. -/
theorem mkKey_resolved_congr (ft : FactorType) (a1 a2 : Args)
    (hi : resolveArg a2.inputs ft.defaultInputs
      = resolveArg a1.inputs ft.defaultInputs)
    (hw : resolveArg a2.window_length ft.defaultWindowLength
      = resolveArg a1.window_length ft.defaultWindowLength)
    (hd : resolveArg a2.dtype ft.defaultDtype
      = resolveArg a1.dtype ft.defaultDtype)
    (hm : a2.mask = a1.mask)
    (hp : resolveParams ft.paramNames a2.kwargs
      = resolveParams ft.paramNames a1.kwargs) :
    mkKey ft a2 = mkKey ft a1 := by
  unfold mkKey
  rw [hi, hw, hd, hm, hp]

theorem construct_ok_mkKey (h : List Term) (ft : FactorType) (a : Args)
    (i : Nat) (h1 : List Term) (e : construct h ft a = (.ok i, h1)) :
    ∃ key, mkKey ft a = .ok key := by
  cases hk : mkKey ft a with
  | error err =>
    unfold construct at e
    simp [hk] at e
  | ok key => exact ⟨key, rfl⟩

/-- C3: structural identity memoization.  Sequential constructions from a
shared cache return the very same object (cache slot) exactly when their
canonical keys agree: same key means same slot and an untouched cache;
keyword-argument order is irrelevant and arguments equal to the class
default are equivalent to omitting them; differing resolved window_length,
dtype, input order, or any declared param value yields a different key and
hence a different object. -/
theorem term_instance_caching (h : List Term) (ft : FactorType)
    (a1 a2 : Args) (i j : Nat) (h1 h2 : List Term)
    (e1 : construct h ft a1 = (.ok i, h1))
    (e2 : construct h1 ft a2 = (.ok j, h2)) :
    (mkKey ft a1 = mkKey ft a2 → i = j ∧ h2 = h1) ∧
    (mkKey ft a1 ≠ mkKey ft a2 → i ≠ j) ∧
    (a2.inputs = a1.inputs → a2.window_length = a1.window_length →
      a2.dtype = a1.dtype → a2.mask = a1.mask → a2.kwargs.Perm a1.kwargs →
      (a1.kwargs.map Prod.fst).Nodup → mkKey ft a2 = mkKey ft a1) ∧
    (∀ v, ft.defaultWindowLength = some v →
      mkKey ft { a1 with window_length := some v }
        = mkKey ft { a1 with window_length := none }) ∧
    (∀ l, ft.defaultInputs = some l →
      mkKey ft { a1 with inputs := some l }
        = mkKey ft { a1 with inputs := none }) ∧
    (∀ d, ft.defaultDtype = some d →
      mkKey ft { a1 with dtype := some d }
        = mkKey ft { a1 with dtype := none }) ∧
    (resolveArg a1.window_length ft.defaultWindowLength
      ≠ resolveArg a2.window_length ft.defaultWindowLength → i ≠ j) ∧
    (resolveArg a1.dtype ft.defaultDtype
      ≠ resolveArg a2.dtype ft.defaultDtype → i ≠ j) ∧
    (resolveArg a1.inputs ft.defaultInputs
      ≠ resolveArg a2.inputs ft.defaultInputs → i ≠ j) ∧
    (∀ nm ∈ ft.paramNames,
      lookupKw a1.kwargs nm ≠ lookupKw a2.kwargs nm → i ≠ j) := by
  obtain ⟨key1, hk1⟩ := construct_ok_mkKey h ft a1 i h1 e1
  obtain ⟨key2, hk2⟩ := construct_ok_mkKey h1 ft a2 j h2 e2
  obtain ⟨in1, wl1, raw1, dt1, ps1, q1, q2, q3, q4, q5, q6, q7⟩ :=
    mkKey_ok_elim ft a1 key1 hk1
  obtain ⟨in2, wl2, raw2, dt2, ps2, r1, r2, r3, r4, r5, r6, r7⟩ :=
    mkKey_ok_elim ft a2 key2 hk2
  have hdistinct : key1 ≠ key2 → i ≠ j :=
    construct_distinct h h1 h2 ft ft a1 a2 i j key1 key2 e1 e2 hk1 hk2
  refine ⟨?_, ?_, ?_, ?_, ?_, ?_, ?_, ?_, ?_, ?_⟩
  · intro hkk
    have hsame : construct h1 ft a2 = construct h1 ft a1 := by
      unfold construct
      rw [← hkk]
    rw [hsame, construct_idem h ft a1 i h1 e1] at e2
    simp at e2
    exact ⟨e2.1, e2.2.symm⟩
  · intro hkk
    refine hdistinct ?_
    intro he
    rw [hk1, hk2, he] at hkk
    exact hkk rfl
  · intro hi hw hd hm hperm hnd
    refine mkKey_resolved_congr ft a1 a2 (by rw [hi]) (by rw [hw]) (by rw [hd])
      hm ?_
    unfold resolveParams
    refine resolveNames_congr a2.kwargs a1.kwargs (sortNames ft.paramNames)
      fun n _ => ?_
    exact lookupKw_perm hperm ((hperm.map Prod.fst).nodup_iff.mpr hnd) n
  · intro v hv
    refine mkKey_resolved_congr ft _ _ rfl ?_ rfl rfl rfl
    show resolveArg (some v) ft.defaultWindowLength
      = resolveArg (none : Option Nat) ft.defaultWindowLength
    rw [hv]
    rfl
  · intro l hl
    refine mkKey_resolved_congr ft _ _ ?_ rfl rfl rfl rfl
    show resolveArg (some l) ft.defaultInputs
      = resolveArg (none : Option (List Term)) ft.defaultInputs
    rw [hl]
    rfl
  · intro d hd
    refine mkKey_resolved_congr ft _ _ rfl rfl ?_ rfl rfl
    show resolveArg (some d) ft.defaultDtype
      = resolveArg (none : Option Nat) ft.defaultDtype
    rw [hd]
    rfl
  · intro hne
    refine hdistinct ?_
    intro he
    apply hne
    rw [q2, r2]
    rw [q7, r7] at he
    simp only [Term.derived.injEq] at he
    rw [he.2.2.1]
  · intro hne
    refine hdistinct ?_
    intro he
    rw [q7, r7] at he
    simp only [Term.derived.injEq] at he
    have hraw : raw1 ≠ raw2 := by
      intro hr
      apply hne
      rw [q3, r3, hr]
    exact parseDtype_inj raw1 raw2 dt1 dt2 q4 r4 hraw he.2.1
  · intro hne
    refine hdistinct ?_
    intro he
    apply hne
    rw [q1, r1]
    rw [q7, r7] at he
    simp only [Term.derived.injEq] at he
    rw [he.2.2.2.1]
  · intro nm hnm hne
    refine hdistinct ?_
    intro he
    rw [q7, r7] at he
    simp only [Term.derived.injEq] at he
    have hps : ps1 = ps2 := he.2.2.2.2.2
    apply hne
    refine resolveNames_inj a1.kwargs a2.kwargs (sortNames ft.paramNames) ps1
      q6 ?_ nm ((mem_sortNames nm ft.paramNames).mpr hnm)
    rw [hps]
    exact r6

/-- C7: a windowed Term (resolved window_length > 0) whose resolved inputs
contain a non-atomic term (window_length > 0) always fails with
NonAtomicInputError, leaving the cache unchanged: nothing is produced or
cached. -/
theorem non_atomic_input_rejected (h : List Term) (ft : FactorType)
    (a : Args) (inputs : List Term) (wl raw : Nat) (dt : DType) (t : Term)
    (hi : resolveArg a.inputs ft.defaultInputs = some inputs)
    (hwl : resolveArg a.window_length ft.defaultWindowLength = some wl)
    (hdt : resolveArg a.dtype ft.defaultDtype = some raw)
    (hparse : parseDtype raw = some dt)
    (hpos : 0 < wl) (ht : t ∈ inputs) (hna : 0 < t.windowLength) :
    construct h ft a = (.error .nonAtomicInput, h) := by
  have hk : mkKey ft a = .error .nonAtomicInput := by
    unfold mkKey
    simp only [hi, hwl, hdt, hparse]
    rw [if_pos ⟨hpos, t, ht, hna⟩]
  unfold construct
  rw [hk]

theorem mkKey_error_iff (ft : FactorType) (a : Args) :
    (mkKey ft a = .error .inputsNotSpecified ↔
      resolveArg a.inputs ft.defaultInputs = none) ∧
    (mkKey ft a = .error .windowLengthNotSpecified ↔
      (∃ inputs, resolveArg a.inputs ft.defaultInputs = some inputs) ∧
      resolveArg a.window_length ft.defaultWindowLength = none) ∧
    (mkKey ft a = .error .dtypeNotSpecified ↔
      (∃ inputs, resolveArg a.inputs ft.defaultInputs = some inputs) ∧
      (∃ wl, resolveArg a.window_length ft.defaultWindowLength = some wl) ∧
      resolveArg a.dtype ft.defaultDtype = none) ∧
    (mkKey ft a = .error .invalidDtype ↔
      (∃ inputs, resolveArg a.inputs ft.defaultInputs = some inputs) ∧
      (∃ wl, resolveArg a.window_length ft.defaultWindowLength = some wl) ∧
      (∃ raw, resolveArg a.dtype ft.defaultDtype = some raw ∧
        parseDtype raw = none)) := by
  unfold mkKey
  cases h1 : resolveArg a.inputs ft.defaultInputs with
  | none => simp
  | some inputs =>
    cases h2 : resolveArg a.window_length ft.defaultWindowLength with
    | none => simp
    | some wl =>
      cases h3 : resolveArg a.dtype ft.defaultDtype with
      | none => simp
      | some raw =>
        cases h4 : parseDtype raw with
        | none => simp [h4]
        | some dt =>
          by_cases h5 : 0 < wl ∧ ∃ t ∈ inputs, 0 < t.windowLength
          · simp [h4, h5]
          · cases h6 : resolveParams ft.paramNames a.kwargs with
            | none => simp [h4, h5]
            | some ps => simp [h4, h5]

/-- C8: Term construction resolves each unspecified argument to the class
default (an explicit argument wins, an omitted one falls back to the
default) and fails synchronously with exactly the matching error:
InputsNotSpecified when inputs remain unresolved, WindowLengthNotSpecified
when window_length remains unresolved, DTypeNotSpecified when dtype remains
unresolved, InvalidDType when a concrete but unrecognized dtype is
supplied; every error surfaces at construction time with the cache
untouched (never recovered internally). -/
theorem construct_error_taxonomy (h : List Term) (ft : FactorType)
    (a : Args) :
    (mkKey ft a = .error .inputsNotSpecified ↔
      resolveArg a.inputs ft.defaultInputs = none) ∧
    (mkKey ft a = .error .windowLengthNotSpecified ↔
      (∃ inputs, resolveArg a.inputs ft.defaultInputs = some inputs) ∧
      resolveArg a.window_length ft.defaultWindowLength = none) ∧
    (mkKey ft a = .error .dtypeNotSpecified ↔
      (∃ inputs, resolveArg a.inputs ft.defaultInputs = some inputs) ∧
      (∃ wl, resolveArg a.window_length ft.defaultWindowLength = some wl) ∧
      resolveArg a.dtype ft.defaultDtype = none) ∧
    (mkKey ft a = .error .invalidDtype ↔
      (∃ inputs, resolveArg a.inputs ft.defaultInputs = some inputs) ∧
      (∃ wl, resolveArg a.window_length ft.defaultWindowLength = some wl) ∧
      (∃ raw, resolveArg a.dtype ft.defaultDtype = some raw ∧
        parseDtype raw = none)) ∧
    (∀ e, construct h ft a = (.error e, h) ↔ mkKey ft a = .error e) ∧
    (resolveArg (none : Option (List Term)) ft.defaultInputs
      = ft.defaultInputs) ∧
    (∀ v : List Term, resolveArg (some v) ft.defaultInputs = some v) ∧
    (resolveArg (none : Option Nat) ft.defaultWindowLength
      = ft.defaultWindowLength) ∧
    (∀ v : Nat, resolveArg (some v) ft.defaultWindowLength = some v) ∧
    (resolveArg (none : Option Nat) ft.defaultDtype = ft.defaultDtype) ∧
    (∀ v : Nat, resolveArg (some v) ft.defaultDtype = some v) := by
  obtain ⟨m1, m2, m3, m4⟩ := mkKey_error_iff ft a
  refine ⟨m1, m2, m3, m4, ?_, rfl, fun v => rfl, rfl, fun v => rfl, rfl,
    fun v => rfl⟩
  intro e
  constructor
  · intro he
    unfold construct at he
    cases hk : mkKey ft a with
    | error err =>
      simp only [hk] at he
      simp at he
      rw [he]
    | ok key =>
      simp only [hk] at he
      cases hl : cacheLookup key h with
      | some i2 => simp [hl] at he
      | none => simp [hl] at he
  · intro hk
    unfold construct
    rw [hk]

/-- The `foo` column of the tests' SomeDataSet. -/
def fooCol : Term := .column "foo" .float64

/-- The `bar` column of the tests' SomeDataSet. -/
def barCol : Term := .column "bar" .float64

/-- The `buzz` column of the tests' SomeDataSet. -/
def buzzCol : Term := .column "buzz" .float64

/-- Model of the tests' SomeFactor class: dtype float64, window_length 5,
inputs [foo, bar]. -/
def someFactorType : FactorType :=
  { name := "SomeFactor", defaultInputs := some [fooCol, barCol],
    defaultWindowLength := some 5, defaultDtype := some 0, paramNames := [] }

/-- Construction with every argument left unspecified. -/
def noneArgs : Args :=
  { inputs := none, window_length := none, dtype := none, mask := none,
    kwargs := [] }

/-- The canonical key of `SomeFactor()`. -/
def someFactorKey : Term :=
  .derived "SomeFactor" .float64 5 [fooCol, barCol] .assetExists []

/-- Witness for C3: `SomeFactor()` and `SomeFactor(inputs=[foo, bar])` hit
the same cache slot from an empty cache. -/
theorem term_instance_caching_witness :
    (0 : Nat) = 0 ∧ ([someFactorKey] : List Term) = [someFactorKey] :=
  (term_instance_caching [] someFactorType noneArgs
    { noneArgs with inputs := some [fooCol, barCol] } 0 0
    [someFactorKey] [someFactorKey] rfl rfl).1 rfl

/-- Witness for C7: a SomeFactor constructed over a windowed SomeFactor
input fails with NonAtomicInputError and caches nothing. -/
theorem non_atomic_input_rejected_witness :
    construct [] someFactorType
        { noneArgs with inputs := some [someFactorKey, fooCol] }
      = (.error .nonAtomicInput, []) :=
  non_atomic_input_rejected [] someFactorType
    { noneArgs with inputs := some [someFactorKey, fooCol] }
    [someFactorKey, fooCol] 5 0 .float64 someFactorKey
    rfl rfl rfl rfl (by decide) (by decide) (by decide)

/-! ### Operator and math-function composition (numerical expressions) -/

/-- Arithmetic binary operators on numeric terms. -/
inductive ExprOp where
  | add
  | sub
  | mul
  | div
  | pow
deriving DecidableEq, Repr

def ExprOp.opName : ExprOp → String
  | .add => "add"
  | .sub => "sub"
  | .mul => "mul"
  | .div => "div"
  | .pow => "pow"

/-- Modelled from the spec: a term-term binary operator composes through the
ordinary construct path as a zero-window float64 expression type over the
two operands, in order. -/
def binOpType (op : ExprOp) : FactorType :=
  { name := "NumExpr_x0_" ++ op.opName ++ "_x1", defaultInputs := none,
    defaultWindowLength := some 0, defaultDtype := some 0, paramNames := [] }

def applyBinOp (h : List Term) (op : ExprOp) (a b : Term) :
    Except TermError Nat × List Term :=
  construct h (binOpType op)
    { inputs := some [a, b], window_length := none, dtype := none,
      mask := none, kwargs := [] }

/-- A binary operator with a scalar literal on the left (folded into the
expression, so part of the type name). -/
def scalarOpTypeL (op : ExprOp) (c : Int) : FactorType :=
  { name := "NumExpr_" ++ toString c ++ "_" ++ op.opName ++ "_x0",
    defaultInputs := none, defaultWindowLength := some 0,
    defaultDtype := some 0, paramNames := [] }

def applyScalarOpL (h : List Term) (op : ExprOp) (c : Int) (b : Term) :
    Except TermError Nat × List Term :=
  construct h (scalarOpTypeL op c)
    { inputs := some [b], window_length := none, dtype := none,
      mask := none, kwargs := [] }

/-- A binary operator with a scalar literal on the right. -/
def scalarOpTypeR (op : ExprOp) (c : Int) : FactorType :=
  { name := "NumExpr_x0_" ++ op.opName ++ "_" ++ toString c,
    defaultInputs := none, defaultWindowLength := some 0,
    defaultDtype := some 0, paramNames := [] }

def applyScalarOpR (h : List Term) (op : ExprOp) (a : Term) (c : Int) :
    Except TermError Nat × List Term :=
  construct h (scalarOpTypeR op c)
    { inputs := some [a], window_length := none, dtype := none,
      mask := none, kwargs := [] }

/-- Unary negation. -/
def negType : FactorType :=
  { name := "NumExpr_neg_x0", defaultInputs := none,
    defaultWindowLength := some 0, defaultDtype := some 0, paramNames := [] }

def applyNeg (h : List Term) (a : Term) : Except TermError Nat × List Term :=
  construct h negType
    { inputs := some [a], window_length := none, dtype := none,
      mask := none, kwargs := [] }

/-- A built-in elementary math transform (sqrt, log, exp, ...), keyed by its
function name. -/
def mathFuncType (fname : String) : FactorType :=
  { name := "NumExpr_" ++ fname ++ "_x0", defaultInputs := none,
    defaultWindowLength := some 0, defaultDtype := some 0, paramNames := [] }

def applyMathFunc (h : List Term) (fname : String) (a : Term) :
    Except TermError Nat × List Term :=
  construct h (mathFuncType fname)
    { inputs := some [a], window_length := none, dtype := none,
      mask := none, kwargs := [] }

/-- C9: every operator family — term-term binary operators, binary operators
with scalar literals on either side, unary negation, and the elementary math
transforms — goes through the one construct-and-cache path, so rebuilding
the same composition of the same operands in the same order hits the cache
and returns the identical object, while composing different operands gives a
different object. -/
theorem expr_instance_caching (h : List Term) (op : ExprOp) (c : Int)
    (fname : String) (a b : Term) :
    (applyBinOp h op a b
      = construct h (binOpType op)
          { inputs := some [a, b], window_length := none, dtype := none,
            mask := none, kwargs := [] }) ∧
    (∀ i h1, applyBinOp h op a b = (.ok i, h1) →
      applyBinOp h1 op a b = (.ok i, h1)) ∧
    (∀ i h1, applyScalarOpL h op c b = (.ok i, h1) →
      applyScalarOpL h1 op c b = (.ok i, h1)) ∧
    (∀ i h1, applyScalarOpR h op a c = (.ok i, h1) →
      applyScalarOpR h1 op a c = (.ok i, h1)) ∧
    (∀ i h1, applyNeg h a = (.ok i, h1) → applyNeg h1 a = (.ok i, h1)) ∧
    (∀ i h1, applyMathFunc h fname a = (.ok i, h1) →
      applyMathFunc h1 fname a = (.ok i, h1)) ∧
    (∀ a2 b2 i j h1 h2, applyBinOp h op a b = (.ok i, h1) →
      applyBinOp h1 op a2 b2 = (.ok j, h2) → (a, b) ≠ (a2, b2) → i ≠ j) := by
  refine ⟨rfl, ?_, ?_, ?_, ?_, ?_, ?_⟩
  · intro i h1 e
    exact construct_idem h _ _ i h1 e
  · intro i h1 e
    exact construct_idem h _ _ i h1 e
  · intro i h1 e
    exact construct_idem h _ _ i h1 e
  · intro i h1 e
    exact construct_idem h _ _ i h1 e
  · intro i h1 e
    exact construct_idem h _ _ i h1 e
  · intro a2 b2 i j h1 h2 e1 e2 hne
    refine construct_distinct h h1 h2 (binOpType op) (binOpType op) _ _ i j
      (.derived (binOpType op).name .float64 0 [a, b] .assetExists [])
      (.derived (binOpType op).name .float64 0 [a2, b2] .assetExists [])
      e1 e2 rfl rfl ?_
    intro he
    simp only [Term.derived.injEq] at he
    obtain ⟨ha, hb⟩ := List.cons.injEq .. ▸ he.2.2.2.1
    apply hne
    have hb2 : b = b2 := by
      have := he.2.2.2.1
      simp at this
      exact this.2
    have ha2 : a = a2 := by
      have := he.2.2.2.1
      simp at this
      exact this.1
    rw [ha2, hb2]

/-! ### TermGraph: transitive closure, topological order, extra rows -/

mutual

/-- Modelled from the spec: depth-first postorder insertion of a term into
the accumulated topological order — dependencies (inputs, then mask) are
inserted strictly before the term itself, and a term already present is not
duplicated. -/
def addTerm (acc : List Term) : Term → List Term
  | .assetExists =>
    if Term.assetExists ∈ acc then acc else acc ++ [Term.assetExists]
  | .column n d =>
    if Term.column n d ∈ acc then acc
    else
      let acc2 :=
        if Term.assetExists ∈ acc then acc else acc ++ [Term.assetExists]
      if Term.column n d ∈ acc2 then acc2 else acc2 ++ [Term.column n d]
  | .derived s d wl inputs mask ps =>
    if Term.derived s d wl inputs mask ps ∈ acc then acc
    else
      let acc2 := addList acc inputs
      let acc3 := addTerm acc2 mask
      if Term.derived s d wl inputs mask ps ∈ acc3 then acc3
      else acc3 ++ [Term.derived s d wl inputs mask ps]

/-- Insert a list of terms in order, threading the accumulator. -/
def addList (acc : List Term) : List Term → List Term
  | [] => acc
  | t :: ts => addList (addTerm acc t) ts

end

/-- Modelled from the spec: `ordered()` — the deterministic topological
order over the transitive dependency closure of the requested outputs
(dependencies strictly before dependents, each term exactly once). -/
def ordered (outputs : List Term) : List Term :=
  addList [] outputs

/-- Extra-rows metadata: association list lookup, defaulting to the seed 0. -/
def erLookup : List (Term × Nat) → Term → Nat
  | [], _ => 0
  | (t2, v2) :: rest, t => if t2 = t then v2 else erLookup rest t

/-- Accumulate `extra_rows[d] = max (extra_rows[d], v)`. -/
def erBump : List (Term × Nat) → Term → Nat → List (Term × Nat)
  | [], t, v => [(t, v)]
  | (t2, v2) :: rest, t, v =>
    if t2 = t then (t2, max v2 v) :: rest else (t2, v2) :: erBump rest t v

def bumpAll (m : List (Term × Nat)) (ds : List Term) (v : Nat) :
    List (Term × Nat) :=
  ds.foldl (fun m2 d => erBump m2 d v) m

/-- Modelled from the spec: one visit of the reverse topological pass — for
every edge C → D accumulate `extra_rows[D] = max (extra_rows[D],
extra_rows[C] + C.window_length - 1)`. -/
def processNode (m : List (Term × Nat)) (c : Term) : List (Term × Nat) :=
  bumpAll m c.dependencies (erLookup m c + c.windowLength - 1)

/-- Modelled from the spec: the extra-rows metadata, computed by a single
reverse topological pass (dependents before their dependencies), seeding
every requested output at 0. -/
def extraRowsMap (outputs : List Term) : List (Term × Nat) :=
  (ordered outputs).reverse.foldl processNode []

def extraRows (outputs : List Term) (t : Term) : Nat :=
  erLookup (extraRowsMap outputs) t

/-- Reachability from a term through the dependency relation. -/
inductive Sub : Term → Term → Prop
  | refl (t : Term) : Sub t t
  | dep {t u d : Term} : Sub t u → d ∈ u.dependencies → Sub t d

/-- Insertion only appends: the accumulator is a prefix of the result. -/
theorem add_append :
    (∀ (acc : List Term) (t : Term), ∃ s, addTerm acc t = acc ++ s) ∧
    (∀ (acc ts : List Term), ∃ s, addList acc ts = acc ++ s) := by
  refine addTerm.mutual_induct (fun acc t => ∃ s, addTerm acc t = acc ++ s)
    (fun acc ts => ∃ s, addList acc ts = acc ++ s)
    ?_ ?_ ?_ ?_ ?_ ?_ ?_ ?_ ?_ ?_
  · intro acc hmem
    exact ⟨[], by simp [addTerm, hmem]⟩
  · intro acc hmem
    exact ⟨[Term.assetExists], by simp [addTerm, hmem]⟩
  · intro acc n d hmem
    exact ⟨[], by simp [addTerm, hmem]⟩
  · intro acc n d hmem acc2 hmem2
    have hm2 : Term.column n d ∈
        (if Term.assetExists ∈ acc then acc else acc ++ [Term.assetExists]) :=
      hmem2
    by_cases hae : Term.assetExists ∈ acc
    · rw [if_pos hae] at hm2
      exact absurd hm2 hmem
    · rw [if_neg hae] at hm2
      refine ⟨[Term.assetExists], ?_⟩
      simp only [addTerm, if_neg hmem]
      rw [if_neg hae, if_pos hm2]
  · intro acc n d hmem acc2 hmem2
    have hm2 : Term.column n d ∉
        (if Term.assetExists ∈ acc then acc else acc ++ [Term.assetExists]) :=
      hmem2
    by_cases hae : Term.assetExists ∈ acc
    · rw [if_pos hae] at hm2
      refine ⟨[Term.column n d], ?_⟩
      simp only [addTerm, if_neg hmem]
      rw [if_pos hae, if_neg hm2]
    · rw [if_neg hae] at hm2
      refine ⟨[Term.assetExists, Term.column n d], ?_⟩
      simp only [addTerm, if_neg hmem]
      rw [if_neg hae, if_neg hm2]
      simp
  · intro acc s d wl inputs mask ps hmem
    exact ⟨[], by simp [addTerm, hmem]⟩
  · intro acc s d wl inputs mask ps hmem acc2 acc3 hmem3 ih1 ih2
    obtain ⟨s1, hs1⟩ := ih1
    obtain ⟨s2, hs2⟩ := ih2
    refine ⟨s1 ++ s2, ?_⟩
    simp only [addTerm, if_neg hmem]
    rw [if_pos hmem3]
    show addTerm (addList acc inputs) mask = acc ++ (s1 ++ s2)
    have hs2b : addTerm (addList acc inputs) mask = addList acc inputs ++ s2 :=
      hs2
    rw [hs2b, hs1, List.append_assoc]
  · intro acc s d wl inputs mask ps hmem acc2 acc3 hmem3 ih1 ih2
    obtain ⟨s1, hs1⟩ := ih1
    obtain ⟨s2, hs2⟩ := ih2
    refine ⟨s1 ++ s2 ++ [Term.derived s d wl inputs mask ps], ?_⟩
    simp only [addTerm, if_neg hmem]
    rw [if_neg hmem3]
    show addTerm (addList acc inputs) mask ++ _ = _
    have hs2b : addTerm (addList acc inputs) mask = addList acc inputs ++ s2 :=
      hs2
    rw [hs2b, hs1]
    simp [List.append_assoc]
  · intro acc
    exact ⟨[], by simp [addList]⟩
  · intro acc t ts ih1 ih2
    obtain ⟨s1, hs1⟩ := ih1
    obtain ⟨s2, hs2⟩ := ih2
    refine ⟨s1 ++ s2, ?_⟩
    show addList (addTerm acc t) ts = _
    rw [hs2, hs1, List.append_assoc]

theorem addTerm_mono (acc : List Term) (t x : Term) (hx : x ∈ acc) :
    x ∈ addTerm acc t := by
  obtain ⟨s, hs⟩ := add_append.1 acc t
  rw [hs]
  exact List.mem_append_left s hx

theorem addList_mono (acc ts : List Term) (x : Term) (hx : x ∈ acc) :
    x ∈ addList acc ts := by
  obtain ⟨s, hs⟩ := add_append.2 acc ts
  rw [hs]
  exact List.mem_append_left s hx

/-- Every inserted term is a member of the result. -/
theorem add_mem :
    (∀ (acc : List Term) (t : Term), t ∈ addTerm acc t) ∧
    (∀ (acc ts : List Term), ∀ x ∈ ts, x ∈ addList acc ts) := by
  refine addTerm.mutual_induct (fun acc t => t ∈ addTerm acc t)
    (fun acc ts => ∀ x ∈ ts, x ∈ addList acc ts)
    ?_ ?_ ?_ ?_ ?_ ?_ ?_ ?_ ?_ ?_
  · intro acc hmem
    simp [addTerm, hmem]
  · intro acc hmem
    simp [addTerm, hmem]
  · intro acc n d hmem
    simp [addTerm, hmem]
  · intro acc n d hmem acc2 hmem2
    simp only [addTerm, if_neg hmem]
    rw [if_pos hmem2]
    exact hmem2
  · intro acc n d hmem acc2 hmem2
    simp only [addTerm, if_neg hmem]
    rw [if_neg hmem2]
    simp
  · intro acc s d wl inputs mask ps hmem
    simp [addTerm, hmem]
  · intro acc s d wl inputs mask ps hmem acc2 acc3 hmem3 ih1 ih2
    simp only [addTerm, if_neg hmem]
    rw [if_pos hmem3]
    exact hmem3
  · intro acc s d wl inputs mask ps hmem acc2 acc3 hmem3 ih1 ih2
    simp only [addTerm, if_neg hmem]
    rw [if_neg hmem3]
    simp
  · intro acc x hx
    simp at hx
  · intro acc t ts ih1 ih2 x hx
    show x ∈ addList (addTerm acc t) ts
    cases List.mem_cons.mp hx with
    | inl he =>
      subst he
      exact addList_mono _ ts x ih1
    | inr hm => exact ih2 x hm

/-- The topological-order invariant: no duplicates, and every term's
dependencies appear strictly earlier in the list. -/
def GoodList (l : List Term) : Prop :=
  l.Nodup ∧ ∀ (n : Nat) (h : n < l.length),
    ∀ d ∈ (l.get ⟨n, h⟩).dependencies, d ∈ l.take n

theorem goodList_append_one (l : List Term) (t : Term) (hg : GoodList l)
    (ht : t ∉ l) (hd : ∀ d ∈ t.dependencies, d ∈ l) :
    GoodList (l ++ [t]) := by
  obtain ⟨hnd, hdeps⟩ := hg
  constructor
  · simp [List.nodup_append, hnd, ht]
  · intro n h d hdm
    rw [List.length_append, List.length_singleton] at h
    by_cases hn : n < l.length
    · have hget : (l ++ [t]).get ⟨n, by simp; omega⟩ = l.get ⟨n, hn⟩ := by
        simp only [List.get_eq_getElem]
        exact List.getElem_append_left hn
      rw [hget] at hdm
      have := hdeps n hn d hdm
      rw [List.take_append_of_le_length (by omega)]
      exact this
    · have hn2 : n = l.length := by omega
      subst hn2
      have hget : (l ++ [t]).get ⟨l.length, by simp⟩ = t := by
        simp
      rw [hget] at hdm
      rw [List.take_append_of_le_length (le_refl l.length), List.take_length]
      exact hd d hdm

/-- Insertion preserves the topological-order invariant. -/
theorem add_good :
    (∀ (acc : List Term) (t : Term), GoodList acc → GoodList (addTerm acc t)) ∧
    (∀ (acc ts : List Term), GoodList acc → GoodList (addList acc ts)) := by
  refine addTerm.mutual_induct
    (fun acc t => GoodList acc → GoodList (addTerm acc t))
    (fun acc ts => GoodList acc → GoodList (addList acc ts))
    ?_ ?_ ?_ ?_ ?_ ?_ ?_ ?_ ?_ ?_
  · intro acc hmem hg
    simpa [addTerm, hmem] using hg
  · intro acc hmem hg
    simp only [addTerm, if_neg hmem]
    exact goodList_append_one acc Term.assetExists hg hmem
      (by simp [Term.dependencies])
  · intro acc n d hmem hg
    simpa [addTerm, hmem] using hg
  · intro acc n d hmem acc2 hmem2 hg
    have hm2 : Term.column n d ∈
        (if Term.assetExists ∈ acc then acc else acc ++ [Term.assetExists]) :=
      hmem2
    by_cases hae : Term.assetExists ∈ acc
    · rw [if_pos hae] at hm2
      exact absurd hm2 hmem
    · rw [if_neg hae] at hm2
      simp only [addTerm, if_neg hmem]
      rw [if_neg hae, if_pos hm2]
      exact goodList_append_one acc Term.assetExists hg hae
        (by simp [Term.dependencies])
  · intro acc n d hmem acc2 hmem2 hg
    have hm2 : Term.column n d ∉
        (if Term.assetExists ∈ acc then acc else acc ++ [Term.assetExists]) :=
      hmem2
    by_cases hae : Term.assetExists ∈ acc
    · rw [if_pos hae] at hm2
      simp only [addTerm, if_neg hmem]
      rw [if_pos hae, if_neg hm2]
      refine goodList_append_one acc (Term.column n d) hg hm2 ?_
      intro x hx
      simp [Term.dependencies] at hx
      rw [hx]
      exact hae
    · rw [if_neg hae] at hm2
      simp only [addTerm, if_neg hmem]
      rw [if_neg hae, if_neg hm2]
      refine goodList_append_one (acc ++ [Term.assetExists]) (Term.column n d)
        (goodList_append_one acc Term.assetExists hg hae
          (by simp [Term.dependencies]))
        hm2 ?_
      intro x hx
      simp [Term.dependencies] at hx
      rw [hx]
      simp
  · intro acc s d wl inputs mask ps hmem hg
    simpa [addTerm, hmem] using hg
  · intro acc s d wl inputs mask ps hmem acc2 acc3 hmem3 ih1 ih2 hg
    simp only [addTerm, if_neg hmem]
    rw [if_pos hmem3]
    exact ih2 (ih1 hg)
  · intro acc s d wl inputs mask ps hmem acc2 acc3 hmem3 ih1 ih2 hg
    simp only [addTerm, if_neg hmem]
    rw [if_neg hmem3]
    refine goodList_append_one (addTerm (addList acc inputs) mask)
      (Term.derived s d wl inputs mask ps) (ih2 (ih1 hg)) hmem3 ?_
    intro x hx
    simp only [Term.dependencies, List.mem_append, List.mem_singleton] at hx
    cases hx with
    | inl hin =>
      exact addTerm_mono (addList acc inputs) mask x (add_mem.2 acc inputs x hin)
    | inr hmask =>
      rw [hmask]
      exact add_mem.1 (addList acc inputs) mask
  · intro acc hg
    simpa [addList] using hg
  · intro acc t ts ih1 ih2 hg
    exact ih2 (ih1 hg)

theorem sub_of_dep {t d x : Term} (hd : d ∈ t.dependencies) (hs : Sub d x) :
    Sub t x := by
  induction hs with
  | refl => exact Sub.dep (Sub.refl t) hd
  | dep hsub hmem ih => exact Sub.dep ih hmem

/-- Everything inserted is reachable from the inserted term (or was already
in the accumulator). -/
theorem add_sub :
    (∀ (acc : List Term) (t : Term), ∀ x ∈ addTerm acc t, x ∈ acc ∨ Sub t x) ∧
    (∀ (acc ts : List Term), ∀ x ∈ addList acc ts,
      x ∈ acc ∨ ∃ t ∈ ts, Sub t x) := by
  refine addTerm.mutual_induct
    (fun acc t => ∀ x ∈ addTerm acc t, x ∈ acc ∨ Sub t x)
    (fun acc ts => ∀ x ∈ addList acc ts, x ∈ acc ∨ ∃ t ∈ ts, Sub t x)
    ?_ ?_ ?_ ?_ ?_ ?_ ?_ ?_ ?_ ?_
  · intro acc hmem x hx
    rw [show addTerm acc Term.assetExists = acc by simp [addTerm, hmem]] at hx
    exact Or.inl hx
  · intro acc hmem x hx
    rw [show addTerm acc Term.assetExists = acc ++ [Term.assetExists] by
      simp [addTerm, hmem]] at hx
    cases List.mem_append.mp hx with
    | inl h => exact Or.inl h
    | inr h =>
      simp at h
      rw [h]
      exact Or.inr (Sub.refl _)
  · intro acc n d hmem x hx
    rw [show addTerm acc (Term.column n d) = acc by simp [addTerm, hmem]] at hx
    exact Or.inl hx
  · intro acc n d hmem acc2 hmem2 x hx
    have hm2 : Term.column n d ∈
        (if Term.assetExists ∈ acc then acc else acc ++ [Term.assetExists]) :=
      hmem2
    by_cases hae : Term.assetExists ∈ acc
    · rw [if_pos hae] at hm2
      exact absurd hm2 hmem
    · rw [if_neg hae] at hm2
      have hx2 : x ∈ acc ++ [Term.assetExists] := by
        have : addTerm acc (Term.column n d) = acc ++ [Term.assetExists] := by
          simp only [addTerm, if_neg hmem]
          rw [if_neg hae, if_pos hm2]
        rw [this] at hx
        exact hx
      cases List.mem_append.mp hx2 with
      | inl h => exact Or.inl h
      | inr h =>
        simp at h
        rw [h]
        exact Or.inr (Sub.dep (Sub.refl (Term.column n d))
          (by simp [Term.dependencies]))
  · intro acc n d hmem acc2 hmem2 x hx
    have hm2 : Term.column n d ∉
        (if Term.assetExists ∈ acc then acc else acc ++ [Term.assetExists]) :=
      hmem2
    by_cases hae : Term.assetExists ∈ acc
    · rw [if_pos hae] at hm2
      have hx2 : x ∈ acc ++ [Term.column n d] := by
        have : addTerm acc (Term.column n d) = acc ++ [Term.column n d] := by
          simp only [addTerm, if_neg hmem]
          rw [if_pos hae, if_neg hm2]
        rw [this] at hx
        exact hx
      cases List.mem_append.mp hx2 with
      | inl h => exact Or.inl h
      | inr h =>
        simp at h
        rw [h]
        exact Or.inr (Sub.refl _)
    · rw [if_neg hae] at hm2
      have hx2 : x ∈ acc ++ [Term.assetExists] ++ [Term.column n d] := by
        have : addTerm acc (Term.column n d)
            = acc ++ [Term.assetExists] ++ [Term.column n d] := by
          simp only [addTerm, if_neg hmem]
          rw [if_neg hae, if_neg hm2]
        rw [this] at hx
        exact hx
      rcases List.mem_append.mp hx2 with h2 | h2
      · rcases List.mem_append.mp h2 with h3 | h3
        · exact Or.inl h3
        · simp at h3
          rw [h3]
          exact Or.inr (Sub.dep (Sub.refl (Term.column n d))
            (by simp [Term.dependencies]))
      · simp at h2
        rw [h2]
        exact Or.inr (Sub.refl _)
  · intro acc s d wl inputs mask ps hmem x hx
    rw [show addTerm acc (Term.derived s d wl inputs mask ps) = acc by
      simp [addTerm, hmem]] at hx
    exact Or.inl hx
  · intro acc s d wl inputs mask ps hmem acc2 acc3 hmem3 ih1 ih2 x hx
    have hx3 : x ∈ addTerm (addList acc inputs) mask := by
      have : addTerm acc (Term.derived s d wl inputs mask ps)
          = addTerm (addList acc inputs) mask := by
        simp only [addTerm, if_neg hmem]
        rw [if_pos hmem3]
      rw [this] at hx
      exact hx
    cases ih2 x hx3 with
    | inl h2 =>
      cases ih1 x h2 with
      | inl h3 => exact Or.inl h3
      | inr h3 =>
        obtain ⟨u, hu, hsub⟩ := h3
        exact Or.inr (sub_of_dep (by simp [Term.dependencies, hu]) hsub)
    | inr h2 =>
      exact Or.inr (sub_of_dep (by simp [Term.dependencies]) h2)
  · intro acc s d wl inputs mask ps hmem acc2 acc3 hmem3 ih1 ih2 x hx
    have hx3 : x ∈ addTerm (addList acc inputs) mask
        ++ [Term.derived s d wl inputs mask ps] := by
      have : addTerm acc (Term.derived s d wl inputs mask ps)
          = addTerm (addList acc inputs) mask
            ++ [Term.derived s d wl inputs mask ps] := by
        simp only [addTerm, if_neg hmem]
        rw [if_neg hmem3]
      rw [this] at hx
      exact hx
    rcases List.mem_append.mp hx3 with h2 | h2
    · cases ih2 x h2 with
      | inl h3 =>
        cases ih1 x h3 with
        | inl h4 => exact Or.inl h4
        | inr h4 =>
          obtain ⟨u, hu, hsub⟩ := h4
          exact Or.inr (sub_of_dep (by simp [Term.dependencies, hu]) hsub)
      | inr h3 =>
        exact Or.inr (sub_of_dep (by simp [Term.dependencies]) h3)
    · simp at h2
      rw [h2]
      exact Or.inr (Sub.refl _)
  · intro acc x hx
    rw [show addList acc [] = acc from rfl] at hx
    exact Or.inl hx
  · intro acc t ts ih1 ih2 x hx
    cases ih2 x hx with
    | inl h2 =>
      cases ih1 x h2 with
      | inl h3 => exact Or.inl h3
      | inr h3 => exact Or.inr ⟨t, List.mem_cons_self t ts, h3⟩
    | inr h2 =>
      obtain ⟨u, hu, hsub⟩ := h2
      exact Or.inr ⟨u, List.mem_cons_of_mem t hu, hsub⟩

/-- Model of the tests' SomeOtherFactor class key: window_length 5, inputs
[bar, buzz]. -/
def someOtherFactorKey : Term :=
  .derived "SomeOtherFactor" .float64 5 [barCol, buzzCol] .assetExists []

theorem goodList_nil : GoodList [] :=
  ⟨List.nodup_nil, fun n h => absurd h (by simp)⟩

theorem ordered_good (outputs : List Term) : GoodList (ordered outputs) :=
  add_good.2 [] outputs goodList_nil

theorem ordered_deps_closed (outputs : List Term) :
    ∀ t ∈ ordered outputs, ∀ d ∈ t.dependencies, d ∈ ordered outputs := by
  intro t ht d hd
  have hg := ordered_good outputs
  obtain ⟨⟨n, hn⟩, he⟩ := List.mem_iff_get.mp ht
  have := hg.2 n hn d (by rw [he]; exact hd)
  exact List.mem_of_mem_take this

/-- C4: `ordered()` lists each term of the transitive dependency closure of
the outputs (masks and the AssetExists leaf included) exactly once, with
every term's dependencies strictly earlier in the sequence; membership is
exactly reachability from an output through the dependency relation, and a
leaf shared by two distinct outputs (bar, shared by SomeFactor and
SomeOtherFactor) appears exactly once. -/
theorem ordered_topological (outputs : List Term) :
    (ordered outputs).Nodup ∧
    (∀ (n : Nat) (h : n < (ordered outputs).length),
      ∀ d ∈ ((ordered outputs).get ⟨n, h⟩).dependencies,
        d ∈ (ordered outputs).take n) ∧
    (∀ x, x ∈ ordered outputs ↔ ∃ o ∈ outputs, Sub o x) ∧
    (ordered [someFactorKey, someOtherFactorKey]).count barCol = 1 := by
  have hg := ordered_good outputs
  refine ⟨hg.1, hg.2, ?_, by decide⟩
  intro x
  constructor
  · intro hx
    cases add_sub.2 [] outputs x hx with
    | inl h => simp at h
    | inr h => exact h
  · rintro ⟨o, ho, hsub⟩
    induction hsub with
    | refl => exact add_mem.2 [] outputs o ho
    | dep hsub hmem ih => exact ordered_deps_closed outputs _ ih _ hmem

theorem erLookup_erBump (d : Term) (v : Nat) :
    ∀ (m : List (Term × Nat)) (t : Term),
    erLookup (erBump m d v) t
      = if d = t then max (erLookup m t) v else erLookup m t := by
  intro m
  induction m with
  | nil =>
    intro t
    by_cases he : d = t
    · subst he
      simp [erBump, erLookup]
    · simp [erBump, erLookup, he]
  | cons p rest ih =>
    intro t
    obtain ⟨t2, v2⟩ := p
    by_cases h2d : t2 = d
    · simp only [erBump, if_pos h2d]
      by_cases h2t : t2 = t
      · have hdt : d = t := h2d.symm.trans h2t
        simp only [erLookup, if_pos h2t, if_pos hdt]
      · have hdt : ¬(d = t) := fun he => h2t (h2d.trans he)
        simp only [erLookup, if_neg h2t, if_neg hdt]
    · simp only [erBump, if_neg h2d]
      by_cases h2t : t2 = t
      · have hdt : ¬(d = t) := fun he => h2d (h2t.trans he.symm)
        simp only [erLookup, if_pos h2t, if_neg hdt]
      · simp only [erLookup, if_neg h2t, ih t]

theorem erLookup_bumpAll (v : Nat) :
    ∀ (ds : List Term) (m : List (Term × Nat)) (t : Term),
    erLookup (bumpAll m ds v) t
      = if t ∈ ds then max (erLookup m t) v else erLookup m t := by
  intro ds
  induction ds with
  | nil => intro m t; simp [bumpAll]
  | cons d ds ih =>
    intro m t
    show erLookup (bumpAll (erBump m d v) ds v) t = _
    rw [ih (erBump m d v) t, erLookup_erBump d v m t]
    simp only [List.mem_cons]
    by_cases hm : t = d
    · subst hm
      by_cases hds : t ∈ ds <;> simp [hds]
    · have hm2 : ¬(d = t) := fun h => hm h.symm
      by_cases hds : t ∈ ds <;> simp [hds, hm, hm2]

theorem erLookup_processNode (m : List (Term × Nat)) (c t : Term) :
    erLookup (processNode m c) t
      = if t ∈ c.dependencies
        then max (erLookup m t) (erLookup m c + c.windowLength - 1)
        else erLookup m t := by
  unfold processNode
  exact erLookup_bumpAll _ c.dependencies m t

theorem erLookup_foldl_mono :
    ∀ (nodes : List Term) (m : List (Term × Nat)) (t : Term),
    erLookup m t ≤ erLookup (nodes.foldl processNode m) t := by
  intro nodes
  induction nodes with
  | nil => intro m t; simp
  | cons x rest ih =>
    intro m t
    refine le_trans ?_ (ih (processNode m x) t)
    rw [erLookup_processNode]
    by_cases hx : t ∈ x.dependencies
    · rw [if_pos hx]
      omega
    · rw [if_neg hx]

theorem erLookup_foldl_stable :
    ∀ (nodes : List Term) (m : List (Term × Nat)) (t : Term),
    (∀ x ∈ nodes, t ∉ x.dependencies) →
    erLookup (nodes.foldl processNode m) t = erLookup m t := by
  intro nodes
  induction nodes with
  | nil => intro m t _; rfl
  | cons x rest ih =>
    intro m t hnot
    show erLookup (rest.foldl processNode (processNode m x)) t = _
    rw [ih (processNode m x) t fun y hy => hnot y (List.mem_cons_of_mem x hy),
      erLookup_processNode, if_neg (hnot x (List.mem_cons_self x rest))]

theorem self_not_mem_dependencies (t : Term) : t ∉ t.dependencies := by
  cases t with
  | assetExists => simp [Term.dependencies]
  | column n d => simp [Term.dependencies]
  | derived s d wl inputs mask ps =>
    intro hmem
    simp only [Term.dependencies, List.mem_append, List.mem_singleton] at hmem
    cases hmem with
    | inl h =>
      have h1 := List.sizeOf_lt_of_mem h
      simp only [Term.derived.sizeOf_spec] at h1
      omega
    | inr h =>
      have h1 := congrArg sizeOf h
      simp only [Term.derived.sizeOf_spec] at h1
      omega

/-- Dependents come strictly before their dependencies in the processed
(reversed topological) sequence: no later node has an earlier node among
its dependencies. -/
def ConsumersFirst (l : List Term) : Prop :=
  l.Pairwise fun x y => x ∉ y.dependencies

theorem consumersFirst_reverse (l : List Term) (hg : GoodList l) :
    ConsumersFirst l.reverse := by
  unfold ConsumersFirst
  rw [List.pairwise_reverse, List.pairwise_iff_getElem]
  intro i j hi hj hij hmem
  have h2 : l[j] ∈ l.take i := by
    have := hg.2 i hi l[j]
    simp only [List.get_eq_getElem] at this
    exact this hmem
  obtain ⟨k, hk, he⟩ := List.getElem_of_mem h2
  have hk2 : k < i := by
    have := hk
    simp only [List.length_take] at this
    omega
  have hkl : k < l.length := by omega
  rw [List.getElem_take] at he
  have : k = j := by
    have hinj := List.nodup_iff_injective_get.mp hg.1
    have h3 : l.get ⟨k, hkl⟩ = l.get ⟨j, hj⟩ := by
      simp only [List.get_eq_getElem]
      exact he
    have := hinj h3
    simpa using this
  omega

/-- After the reverse pass, every edge C → D satisfies
`extra_rows[D] ≥ extra_rows[C] + C.window_length - 1`. -/
theorem foldl_edge : ∀ (nodes : List Term) (m : List (Term × Nat)) (c : Term),
    ConsumersFirst nodes → c ∈ nodes → ∀ d ∈ c.dependencies,
    erLookup (nodes.foldl processNode m) c + c.windowLength - 1
      ≤ erLookup (nodes.foldl processNode m) d := by
  intro nodes
  induction nodes with
  | nil =>
    intro m c _ hc
    simp at hc
  | cons x rest ih =>
    intro m c hcf hc d hd
    obtain ⟨hx, hcf2⟩ := List.pairwise_cons.mp hcf
    show erLookup (rest.foldl processNode (processNode m x)) c + _ - 1
      ≤ erLookup (rest.foldl processNode (processNode m x)) d
    cases List.mem_cons.mp hc with
    | inl he =>
      subst he
      have hstable : erLookup (rest.foldl processNode (processNode m c)) c
          = erLookup m c := by
        rw [erLookup_foldl_stable rest (processNode m c) c hx,
          erLookup_processNode, if_neg (self_not_mem_dependencies c)]
      rw [hstable]
      have hstep : erLookup m c + c.windowLength - 1
          ≤ erLookup (processNode m c) d := by
        rw [erLookup_processNode, if_pos hd]
        omega
      exact le_trans hstep (erLookup_foldl_mono rest (processNode m c) d)
    | inr hm => exact ih (processNode m x) c hcf2 hm d hd

/-- After the reverse pass, every value is either still its seed or exactly
attained by one of its consumers: `extra_rows[D]` is the max over consumers
(and the seed 0). -/
theorem foldl_attained :
    ∀ (nodes : List Term) (m : List (Term × Nat)) (t : Term),
    ConsumersFirst nodes →
    (erLookup (nodes.foldl processNode m) t = erLookup m t ∨
      ∃ c ∈ nodes, t ∈ c.dependencies ∧
        erLookup (nodes.foldl processNode m) t
          = erLookup (nodes.foldl processNode m) c + c.windowLength - 1) := by
  intro nodes
  induction nodes with
  | nil =>
    intro m t _
    exact Or.inl rfl
  | cons x rest ih =>
    intro m t hcf
    obtain ⟨hx, hcf2⟩ := List.pairwise_cons.mp hcf
    show erLookup (rest.foldl processNode (processNode m x)) t = erLookup m t ∨ _
    cases ih (processNode m x) t hcf2 with
    | inr hex =>
      obtain ⟨c, hc, htd, he⟩ := hex
      exact Or.inr ⟨c, List.mem_cons_of_mem x hc, htd, he⟩
    | inl heq =>
      by_cases htx : t ∈ x.dependencies
      · have hpn : erLookup (processNode m x) t
            = max (erLookup m t) (erLookup m x + x.windowLength - 1) := by
          rw [erLookup_processNode, if_pos htx]
        have hxstable : erLookup (rest.foldl processNode (processNode m x)) x
            = erLookup m x := by
          rw [erLookup_foldl_stable rest (processNode m x) x hx,
            erLookup_processNode, if_neg (self_not_mem_dependencies x)]
        by_cases hcmp : erLookup m x + x.windowLength - 1 ≤ erLookup m t
        · left
          rw [heq, hpn, Nat.max_eq_left hcmp]
        · right
          refine ⟨x, List.mem_cons_self x rest, htx, ?_⟩
          show erLookup (rest.foldl processNode (processNode m x)) t
            = erLookup (rest.foldl processNode (processNode m x)) x
              + x.windowLength - 1
          rw [heq, hpn, Nat.max_eq_right (by omega), hxstable]
      · left
        rw [heq, erLookup_processNode, if_neg htx]

/-- Model of a SomeFactor variant with window_length 8 over the same
inputs. -/
def someFactor8Key : Term :=
  .derived "SomeFactorEight" .float64 8 [fooCol, barCol] .assetExists []

/-- C1: extra-rows correctness.  For every edge from consumer C to
dependency D in a built graph, `extra_rows[D] ≥ extra_rows[C] +
C.window_length - 1`, and every extra-rows value is 0 (its seed) or exactly
attained by one of its consumers — together: the max over all consumers.
Concretely, a single SomeFactor output (window_length 5) gives its leaf
inputs and the AssetExists mask extra_rows 4, and two outputs of
window_lengths 5 and 8 over leaf foo give `extra_rows[foo] = max 5 8 - 1`. -/
theorem extra_rows_invariant (outputs : List Term) (c d : Term)
    (hc : c ∈ ordered outputs) (hd : d ∈ c.dependencies) :
    extraRows outputs c + c.windowLength - 1 ≤ extraRows outputs d ∧
    (extraRows outputs d = 0 ∨
      ∃ c2 ∈ ordered outputs, d ∈ c2.dependencies ∧
        extraRows outputs d = extraRows outputs c2 + c2.windowLength - 1) ∧
    extraRows [someFactorKey] fooCol = 4 ∧
    extraRows [someFactorKey] barCol = 4 ∧
    extraRows [someFactorKey] Term.assetExists = 4 ∧
    extraRows [someFactorKey, someFactor8Key] fooCol = max 5 8 - 1 := by
  have hcf := consumersFirst_reverse (ordered outputs) (ordered_good outputs)
  refine ⟨?_, ?_, by decide, by decide, by decide, by decide⟩
  · exact foldl_edge (ordered outputs).reverse [] c hcf
      (List.mem_reverse.mpr hc) d hd
  · cases foldl_attained (ordered outputs).reverse [] d hcf with
    | inl h =>
      left
      exact h
    | inr h =>
      obtain ⟨c2, hc2, hdc2, he⟩ := h
      right
      exact ⟨c2, List.mem_reverse.mp hc2, hdc2, he⟩

/-- Witness for C1: the SomeFactor → foo edge of the single-output graph
satisfies the lookback inequality. -/
theorem extra_rows_invariant_witness :
    extraRows [someFactorKey] someFactorKey + someFactorKey.windowLength - 1
      ≤ extraRows [someFactorKey] fooCol :=
  (extra_rows_invariant [someFactorKey] someFactorKey fooCol (by decide)
    (by decide)).1

end ZiplineSpec
